import Mathlib

/-!
Formal model of the sus-client sync core (`src/magic.rs`): the streaming
merge (`State::merge`), the concatenating fast path (`State::merge_posts`),
the mutation patch applier (`State::update_post_line_with_put_delete`), the
worker/counter protocol of `get_page_and_process`, and a small file-system
layer capturing the open/write/rename behaviour of those functions
(`OpenOptions::new().create(true).write(true)` opens without truncation;
`std::fs::rename` installs the scratch file).

Conventions of the embedding:
* A CSV line is its character sequence (`Line := List Char`); file contents
  are character sequences; reading a file with `.lines()` is `contentToLines`
  and `writeln!` appends the line plus `'\n'`.
* Rust `&str` ordering is byte-lexicographic, which on UTF-8 agrees with the
  codepoint-lexicographic order `ltLine` used here.
* Rust panics (`unwrap` on a missing `put` payload, opening a missing file)
  make a function return `none`: the run aborts and nothing is installed.
-/

/-- Characters of one CSV line, as produced by `CompleteMessage::into_csv_row`
and consumed by the merge via `line.split(',')`. -/
abbrev Line := List Char

/-- Model of Rust `line.split(',')`: the list of comma-separated fields.
Splitting never yields an empty list (the empty line has one empty field). -/
def splitFields : Line → List Line
  | [] => [[]]
  | c :: cs =>
    if c = ',' then [] :: splitFields cs
    else
      match splitFields cs with
      | [] => [[c]]
      | f :: fs => (c :: f) :: fs

/-- Model of `line.split(',').next().unwrap()`: the uuid sort key of a line. -/
def lineKey (l : Line) : Line := (splitFields l).headD []

/-- Model of `line.split(',').last().unwrap()`: the image field of a line. -/
def lastField (l : Line) : Line := (splitFields l).getLastD []

/-- Model of Rust `&str` `<` (byte-lexicographic comparison). -/
def ltLine : Line → Line → Bool
  | _, [] => false
  | [], _ :: _ => true
  | a :: as, b :: bs => if a < b then true else if b < a then false else ltLine as bs

/-- Propositional form of `ltLine`, the strict key order used by the merge. -/
def key_lt (a b : Line) : Prop := ltLine a b = true

instance (a b : Line) : Decidable (key_lt a b) := by unfold key_lt; infer_instance

/-- Keys of a list of lines, in order. -/
def keysOf (ls : List Line) : List Line := ls.map lineKey

/-- Lines strictly sorted (and hence duplicate-free) by uuid key. -/
def sortedByKey (ls : List Line) : Prop := List.Pairwise key_lt (keysOf ls)

instance (ls : List Line) : Decidable (sortedByKey ls) := by
  unfold sortedByKey; infer_instance

/-- Model of `PaginationType` (magic.rs). -/
inductive PaginationType
  | Cache
  | Fresh
deriving DecidableEq

/-- Model of `PaginationMetadata` (magic.rs). -/
structure PaginationMetadata where
  total_pages : Nat
  kind : PaginationType

/-- Model of `ClientPutUpdate` (magic.rs): the put payload of a mutation. -/
structure ClientPutUpdate where
  author : Line
  message : Line
  likes : Int
  image : Option Line
deriving DecidableEq

/-- Model of `PutDeleteUpdate` (magic.rs): one queued mutation. -/
structure PutDeleteUpdate where
  uuid : Line
  put : Option ClientPutUpdate
  delete : Bool
deriving DecidableEq

/-- Model of `CompleteMessage` (magic.rs): one decoded record. -/
structure CompleteMessage where
  uuid : Line
  author : Line
  message : Line
  likes : Int
  image : Option Line
deriving DecidableEq

/-- Model of `likes.to_string()` / `put.likes.to_string()`. -/
def intChars (n : Int) : Line := (toString n).toList

/-- Model of `CompleteMessage::into_csv_row`:
`format!("{},{},{},{},{}", uuid, author, message, likes, image.unwrap_or(""))`. -/
def CompleteMessage.into_csv_row (m : CompleteMessage) : Line :=
  m.uuid ++ ',' :: m.author ++ ',' :: m.message ++ ',' :: intChars m.likes
    ++ ',' :: m.image.getD []

/-- Model of `[String; 5]::join(",")` used to rebuild a patched line. -/
def joinComma : List Line → Line
  | [] => []
  | [f] => f
  | f :: fs => f ++ ',' :: joinComma fs

/-- Model of `ReadResultLine` (magic.rs). -/
structure ReadResultLine where
  line : Line
  updated : Bool
  mark_for_deletion : Bool
deriving DecidableEq

/-- Model of `ReadResultLine::new`. -/
def ReadResultLine.new (l : Line) : ReadResultLine :=
  { line := l, updated := false, mark_for_deletion := false }

/-- The mutable state threaded through `update_post_line_with_put_delete`:
the `should_update_results` flag, the `puts_deletes` buffer (`VecDeque`,
head = front) and the staged mutation files still to be loaded
(`puts_deletes_file_numbers` in ascending page order, together with the
decoded content of each file on disk). -/
structure PatchState where
  should_update_results : Bool
  puts_deletes : List PutDeleteUpdate
  puts_deletes_files : List (List PutDeleteUpdate)
deriving DecidableEq

/-- First half of `State::update_post_line_with_put_delete`
(magic.rs 478-493): when the `puts_deletes` buffer is empty, load the next
staged mutation file into it, or clear `should_update_results` once no file
is left. -/
def load_more_puts_deletes (ps : PatchState) : PatchState :=
  if ps.puts_deletes.isEmpty then
    match ps.puts_deletes_files with
    | f :: rest =>
      { ps with puts_deletes := ps.puts_deletes ++ f, puts_deletes_files := rest }
    | [] => { ps with should_update_results := false }
  else ps

/-- Second half of `State::update_post_line_with_put_delete`
(magic.rs 496-532): pop the front mutation; push it straight back if its
uuid differs from the line's key, otherwise consume it, marking the line
updated and either flagging it for deletion or rebuilding it from the put
payload (`none` models the `update.put.unwrap()` panic). -/
def apply_front_mutation (ps1 : PatchState) (result_line : ReadResultLine) :
    Option (PatchState × ReadResultLine) :=
  match ps1.puts_deletes with
  | [] => some (ps1, result_line)
  | update :: rest =>
    if update.uuid ≠ lineKey result_line.line then
      -- push it back to the front: buffer and line are left unchanged
      some (ps1, result_line)
    else if update.delete then
      some ({ ps1 with puts_deletes := rest },
        { line := result_line.line, updated := true, mark_for_deletion := true })
    else
      match update.put with
      | none => none
      | some put =>
        some ({ ps1 with puts_deletes := rest },
          { line := joinComma [update.uuid, put.author, put.message, intChars put.likes,
              (match put.image with
               | some img => img
               | none => lastField result_line.line)],
            updated := true, mark_for_deletion := result_line.mark_for_deletion })

/-- Model of `State::update_post_line_with_put_delete` (magic.rs 471-534).
Returns `none` where the Rust code panics (`update.put.unwrap()` on a
matching non-delete mutation that carries no payload). -/
def update_post_line_with_put_delete (ps : PatchState) (result_line : ReadResultLine) :
    Option (PatchState × ReadResultLine) :=
  if ps.should_update_results then
    apply_front_mutation (load_more_puts_deletes ps) result_line
  else
    some (ps, result_line)

/-- Model of the tail drain of old result lines: `State::merge`'s
`for result_line in results_reader { update...; write unless deleted }`
(used both when no staged post file exists, magic.rs 310-322, and after the
main loop, magic.rs 455-464). -/
def drain_results (ps : PatchState) : List Line → Option (List Line)
  | [] => some []
  | l :: ls =>
    match update_post_line_with_put_delete ps (ReadResultLine.new l) with
    | none => none
    | some (ps1, rl) =>
      match drain_results ps1 ls with
      | none => none
      | some rest => some (if rl.mark_for_deletion then rest else rl.line :: rest)

/-- The state of `State::merge`'s main loop (magic.rs 344-434): the unread
remainder of the old results file, the `read_result` buffer, the unread
remainder of the currently open staged post file, the staged post files not
yet opened (ascending page order), the `read_cached_post` buffer, the patch
applier state and the lines written to the scratch file so far. -/
structure MergeLoopState where
  results_reader : List Line
  read_result : Option ReadResultLine
  cached_posts_reader : List Line
  post_files : List (List Line)
  read_cached_post : Option Line
  patch : PatchState
  out : List Line

/-- One for `some`, zero for `none`: buffered-line accounting. -/
def optCount {α : Type} : Option α → Nat
  | none => 0
  | some _ => 1

/-- Total length of a list of files' line lists. -/
def sumLens (xs : List (List Line)) : Nat := (xs.map List.length).sum

/-- Lines still to be consumed by the loop; strictly decreases each iteration. -/
def MergeLoopState.measure (st : MergeLoopState) : Nat :=
  st.results_reader.length + optCount st.read_result + st.cached_posts_reader.length
    + sumLens st.post_files + optCount st.read_cached_post

/-- Model of taking the next old result line (magic.rs 346-358): the
`read_result` buffer first, else the next line of the results file; `none`
means the loop breaks (end of the old results file). -/
def next_result_line (buf : Option ReadResultLine) (reader : List Line) :
    Option (ReadResultLine × List Line)  :=
  match buf with
  | some r => some (r, reader)
  | none =>
    match reader with
    | [] => none
    | l :: ls => some (ReadResultLine.new l, ls)

/-- Model of taking the next staged post line (magic.rs 373-414): the
`read_cached_post` buffer first, else the current staged file's reader, else
the first line of the next staged file. `none` covers both breaks (no staged
file left to open, or a freshly opened staged file with no lines); in either
case the remaining staged files are abandoned. Returns the line together
with the new current reader and remaining file list. -/
def next_cached_post_line (buf : Option Line) (reader : List Line)
    (files : List (List Line)) : Option (Line × List Line × List (List Line)) :=
  match buf with
  | some l => some (l, reader, files)
  | none =>
    match reader with
    | c :: cs => some (c, cs, files)
    | [] =>
      match files with
      | f :: rest =>
        match f with
        | c :: cs => some (c, cs, rest)
        | [] => none
      | [] => none

/-- Model of `State::merge`'s main loop plus its post-loop flush
(magic.rs 344-464), fuelled by the number of lines still to consume.
`merge_lines` always supplies fuel `st.measure`, and every iteration consumes
at least one pending line, so the fuel-exhausted base case is reached only
with an empty pending-old state, where it coincides with the loop's own
end-of-results break. -/
def merge_loop : Nat → MergeLoopState → Option (List Line)
  | 0, st =>
    some (st.out ++ (match st.read_cached_post with | some l => [l] | none => [])
      ++ st.cached_posts_reader)
  | fuel + 1, st =>
    match next_result_line st.read_result st.results_reader with
    | none =>
      -- end of the old results file: flush the buffered and remaining staged
      -- post lines of the currently open file (later staged files are lost)
      some (st.out ++ (match st.read_cached_post with | some l => [l] | none => [])
        ++ st.cached_posts_reader)
    | some (rrl0, results1) =>
      match if rrl0.updated then some (st.patch, rrl0)
            else update_post_line_with_put_delete st.patch rrl0 with
      | none => none
      | some (ps1, rrl1) =>
        match next_cached_post_line st.read_cached_post st.cached_posts_reader
            st.post_files with
        | none =>
          -- no staged post line available: write the result line unless it is
          -- marked for deletion, then drain the remaining old result lines
          match drain_results ps1 results1 with
          | none => none
          | some rest =>
            some (st.out ++ (if rrl1.mark_for_deletion then [] else [rrl1.line]) ++ rest)
        | some (cached, reader1, files1) =>
          if ltLine (lineKey rrl1.line) (lineKey cached) then
            merge_loop fuel
              { results_reader := results1, read_result := none,
                cached_posts_reader := reader1, post_files := files1,
                read_cached_post := some cached, patch := ps1,
                out := st.out ++ (if rrl1.mark_for_deletion then [] else [rrl1.line]) }
          else
            merge_loop fuel
              { results_reader := results1,
                read_result := if rrl1.mark_for_deletion then none else some rrl1,
                cached_posts_reader := reader1, post_files := files1,
                read_cached_post := none, patch := ps1,
                out := st.out ++ [cached] }

/-- Model of `State::merge` (magic.rs 281-468) at the level of lines: given
the old results file's lines, the staged post files' lines (ascending page
order) and the staged mutation files' contents (ascending page order), the
lines written to the scratch file, or `none` if the merge panics. -/
def merge_lines (results_lines : List Line) (post_files : List (List Line))
    (puts_deletes_files : List (List PutDeleteUpdate)) : Option (List Line) :=
  let ps : PatchState :=
    { should_update_results := !puts_deletes_files.isEmpty,
      puts_deletes := [], puts_deletes_files := puts_deletes_files }
  match post_files with
  | [] => drain_results ps results_lines
  | f :: rest =>
    let st : MergeLoopState :=
      { results_reader := results_lines, read_result := none,
        cached_posts_reader := f, post_files := rest,
        read_cached_post := none, patch := ps, out := [] }
    merge_loop st.measure st

/-- Model of `State::merge_posts` (magic.rs 262-277) at the level of lines:
every staged post file's lines, in ascending page order. -/
def merge_posts_lines (post_files : List (List Line)) : List Line :=
  post_files.flatten

/-- Name of the dataset file (`RESULT_CSV_NAME` in magic.rs). -/
def RESULT_CSV_NAME : String := "results.csv"

/-- Name of the scratch merge file (`MERGE_FILE_NAME` in magic.rs). -/
def MERGE_FILE_NAME : String := "merge.csv"

/-- The local directory: each file name maps to its content, if the file
exists. -/
def Fs : Type := String → Option (List Char)

/-- Point update of the file system. -/
def Fs.update (fs : Fs) (n : String) (v : Option (List Char)) : Fs :=
  fun m => if m = n then v else fs m

/-- Content written by a sequence of `writeln!` calls: each line followed by
a newline character. -/
def linesToContent : List Line → List Char
  | [] => []
  | l :: ls => l ++ '\n' :: linesToContent ls

/-- Model of reading a file with `.lines()`: content split at newline
characters, with no final empty segment for a trailing newline. -/
def contentToLines : List Char → List Line
  | [] => []
  | c :: cs =>
    if c = '\n' then [] :: contentToLines cs
    else
      match contentToLines cs with
      | [] => [[c]]
      | l :: ls => (c :: l) :: ls

/-- Semantics of writing `w` into a file previously holding `old` that was
opened with `create(true).write(true)` but no `truncate`: writing starts at
offset zero and bytes of `old` beyond the written length survive. -/
def overlay (w old : List Char) : List Char := w ++ old.drop w.length

/-- Model of `State::merge_posts` (magic.rs 262-277) on the file system: the
dataset file is opened directly with `create(true).write(true)` (no truncate,
no scratch file, no rename) and the staged post files' lines are written
into it. -/
def merge_postsFS (post_files : List (List Line)) (fs : Fs) : Fs :=
  Fs.update fs RESULT_CSV_NAME
    (some (overlay (linesToContent (merge_posts_lines post_files))
      ((fs RESULT_CSV_NAME).getD [])))

/-- Model of `State::merge_posts` interrupted by a failure (a staged file
that cannot be opened or read) after the first `k` staged files have been
written: the dataset file already holds the partial output. -/
def merge_posts_partialFS (post_files : List (List Line)) (k : Nat) (fs : Fs) : Fs :=
  Fs.update fs RESULT_CSV_NAME
    (some (overlay (linesToContent (merge_posts_lines (post_files.take k)))
      ((fs RESULT_CSV_NAME).getD [])))

/-- Model of `State::merge` (magic.rs 281-468) on the file system: the old
results file is opened for reading (a panic if absent), the merge output is
written to the scratch file `merge.csv` — opened with
`create(true).write(true)` and no truncate, so stale scratch bytes beyond
the written length survive — and the scratch file is then renamed over the
dataset file. -/
def mergeFS (post_files : List (List Line))
    (puts_deletes_files : List (List PutDeleteUpdate)) (fs : Fs) : Option Fs :=
  match fs RESULT_CSV_NAME with
  | none => none
  | some oldContent =>
    match merge_lines (contentToLines oldContent) post_files puts_deletes_files with
    | none => none
    | some out =>
      let scratch := overlay (linesToContent out) ((fs MERGE_FILE_NAME).getD [])
      some (Fs.update (Fs.update fs MERGE_FILE_NAME none) RESULT_CSV_NAME (some scratch))

/-- Model of `State::merge` interrupted by a failure before the final
`rename`, after `k` output lines have reached the scratch file: only
`merge.csv` has been touched. -/
def merge_partialFS (out : List Line) (k : Nat) (fs : Fs) : Fs :=
  Fs.update fs MERGE_FILE_NAME
    (some (overlay (linesToContent (out.take k)) ((fs MERGE_FILE_NAME).getD [])))

/-- Model of the terminal worker's dispatch once the fetched-page counter
reaches `total_pages` (magic.rs 77-79, 97-102, 120-122): the Fresh path and
the Cache first-sync fast path run `merge_posts` directly on the dataset
file; only the remaining Cache path runs the full `merge`. -/
def terminal_step (kind : PaginationType) (first_sync : Bool)
    (post_files : List (List Line)) (puts_deletes_files : List (List PutDeleteUpdate))
    (fs : Fs) : Option Fs :=
  match kind with
  | PaginationType.Fresh => some (merge_postsFS post_files fs)
  | PaginationType.Cache =>
    if first_sync then some (merge_postsFS post_files fs)
    else mergeFS post_files puts_deletes_files fs

/-- An atomic step of a Cache-path worker (magic.rs 93-122): `inc w` is
worker `w`'s lock-protected `*pages_fetched += 1` together with the
first-sync comparison (magic.rs 93-102); the lock is then dropped
(magic.rs 105) and `chk w` is the later, separately locked re-read of the
counter that decides whether `w` calls `State::merge` (magic.rs 120-122). -/
inductive WorkerEvent
  | inc (w : Nat)
  | chk (w : Nat)
deriving DecidableEq

/-- Workers that invoke `State::merge` in a Cache-path schedule: a `chk`
event fires when the counter value it reads — the number of `inc` events
already executed — equals `total_pages`. -/
def cache_callers_from (total incs : Nat) : List WorkerEvent → List Nat
  | [] => []
  | WorkerEvent.inc _ :: rest => cache_callers_from total (incs + 1) rest
  | WorkerEvent.chk w :: rest =>
    (if incs = total then [w] else []) ++ cache_callers_from total incs rest

/-- Workers that invoke `State::merge` during a Cache-path schedule starting
from counter zero. -/
def cache_merge_callers (total : Nat) (es : List WorkerEvent) : List Nat :=
  cache_callers_from total 0 es

/-- Workers that invoke `State::merge_posts` on the Fresh path
(magic.rs 73-79), where the increment and the comparison happen under one
lock acquisition: the `k`-th worker to increment reads value `k`. `ws` is
the order in which workers perform their atomic increment-and-compare. -/
def fresh_callers_from (total incs : Nat) : List Nat → List Nat
  | [] => []
  | w :: rest =>
    (if incs + 1 = total then [w] else []) ++ fresh_callers_from total (incs + 1) rest

/-- Workers that invoke `State::merge_posts` in a Fresh-path schedule
starting from counter zero. -/
def fresh_merge_callers (total : Nat) (ws : List Nat) : List Nat :=
  fresh_callers_from total 0 ws

/-- Model of the dispatch loop of `get_all_pagination` (magic.rs 34-39):
`for _ in 0..total_pages { pool.execute(...) }` spawns one homogeneous
worker task per page. -/
def spawned_tasks (total_pages : Nat) : List Nat := List.range total_pages

/-- Effect of one entire run on the file system: every spawned task's effect
is applied, and `pool.join()` returns. With no tasks the file system is
untouched. -/
def get_all_pagination_run (total_pages : Nat) (worker : Fs → Fs) (fs : Fs) : Fs :=
  (spawned_tasks total_pages).foldl (fun acc _ => worker acc) fs

/-! Basic facts about the key order `ltLine`. -/

theorem ltLine_irrefl : ∀ a : Line, ltLine a a = false := by
  intro a
  induction a with
  | nil => rfl
  | cons x xs ih => simp [ltLine, ih]

theorem ltLine_trans : ∀ {a b c : Line},
    ltLine a b = true → ltLine b c = true → ltLine a c = true := by
  intro a
  induction a with
  | nil =>
    intro b c hab hbc
    cases b with
    | nil => simp [ltLine] at hab
    | cons y ys =>
      cases c with
      | nil => simp [ltLine] at hbc
      | cons z zs => simp [ltLine]
  | cons x xs ih =>
    intro b c hab hbc
    cases b with
    | nil => simp [ltLine] at hab
    | cons y ys =>
      cases c with
      | nil => simp [ltLine] at hbc
      | cons z zs =>
        rcases lt_trichotomy x y with hxy | hxy | hxy
        · rcases lt_trichotomy y z with hyz | hyz | hyz
          · simp [ltLine, lt_trans hxy hyz]
          · subst hyz; simp [ltLine, hxy]
          · simp [ltLine, lt_asymm hyz, hyz] at hbc
        · subst hxy
          simp [ltLine, lt_irrefl] at hab
          rcases lt_trichotomy x z with hxz | hxz | hxz
          · simp [ltLine, hxz]
          · subst hxz
            simp [ltLine, lt_irrefl] at hbc ⊢
            exact ih hab hbc
          · simp [ltLine, lt_asymm hxz, hxz] at hbc
        · simp [ltLine, lt_asymm hxy, hxy] at hab

theorem ltLine_total_of_ne : ∀ {a b : Line},
    a ≠ b → ltLine a b = true ∨ ltLine b a = true := by
  intro a
  induction a with
  | nil =>
    intro b hne
    cases b with
    | nil => exact absurd rfl hne
    | cons y ys => left; simp [ltLine]
  | cons x xs ih =>
    intro b hne
    cases b with
    | nil => right; simp [ltLine]
    | cons y ys =>
      rcases lt_trichotomy x y with hxy | hxy | hxy
      · left; simp [ltLine, hxy]
      · subst hxy
        have hys : xs ≠ ys := by
          intro h; exact hne (by rw [h])
        rcases ih hys with h | h
        · left; simp [ltLine, h, lt_irrefl]
        · right; simp [ltLine, h, lt_irrefl]
      · right; simp [ltLine, hxy]

theorem ltLine_asymm {a b : Line} (h : ltLine a b = true) : ltLine b a = false := by
  by_contra hc
  have hba : ltLine b a = true := by
    cases hlt : ltLine b a
    · exact absurd hlt hc
    · rfl
  have := ltLine_trans h hba
  rw [ltLine_irrefl] at this
  exact Bool.false_ne_true this

theorem key_lt_trans {a b c : Line} (h1 : key_lt a b) (h2 : key_lt b c) : key_lt a c :=
  ltLine_trans h1 h2

theorem key_lt_ne {a b : Line} (h : key_lt a b) : a ≠ b := by
  intro he
  subst he
  have := ltLine_irrefl a
  unfold key_lt at h
  rw [this] at h
  exact Bool.false_ne_true h

theorem key_lt_of_not_of_ne {a b : Line} (h : ¬ key_lt a b) (hne : a ≠ b) :
    key_lt b a := by
  rcases ltLine_total_of_ne hne with hl | hl
  · exact absurd hl h
  · exact hl

/-! Facts about field splitting and the uuid key of a line. -/

theorem splitFields_ne_nil : ∀ l : Line, splitFields l ≠ [] := by
  intro l
  induction l with
  | nil => simp [splitFields]
  | cons c cs ih =>
    by_cases hc : c = ','
    · simp [splitFields, hc]
    · simp only [splitFields, if_neg hc]
      cases h : splitFields cs with
      | nil => exact absurd h ih
      | cons f fs => simp

theorem mem_splitFields_no_comma : ∀ (l : Line) (f : Line),
    f ∈ splitFields l → ',' ∉ f := by
  intro l
  induction l with
  | nil =>
    intro f hf
    simp [splitFields] at hf
    simp [hf]
  | cons c cs ih =>
    intro f hf
    by_cases hc : c = ','
    · simp only [splitFields, if_pos hc] at hf
      rcases List.mem_cons.mp hf with h | h
      · simp [h]
      · exact ih f h
    · simp only [splitFields, if_neg hc] at hf
      cases h : splitFields cs with
      | nil => exact absurd h (splitFields_ne_nil cs)
      | cons g gs =>
        rw [h] at hf
        rcases List.mem_cons.mp hf with h1 | h1
        · subst h1
          intro hmem
          rcases List.mem_cons.mp hmem with h2 | h2
          · exact hc h2.symm
          · exact ih g (by rw [h]; exact List.mem_cons_self g gs) h2
        · exact ih f (by rw [h]; exact List.mem_cons_of_mem g h1)

theorem splitFields_append_comma : ∀ (u r : Line), ',' ∉ u →
    splitFields (u ++ ',' :: r) = u :: splitFields r := by
  intro u
  induction u with
  | nil => intro r _; simp [splitFields]
  | cons x xs ih =>
    intro r hu
    have hx : ¬ x = ',' := by
      intro h; exact hu (by rw [h]; exact List.mem_cons_self ',' xs)
    have hxs : ',' ∉ xs := by
      intro h; exact hu (List.mem_cons_of_mem x h)
    simp only [List.cons_append, splitFields, if_neg hx, List.append_eq, ih r hxs]

theorem lineKey_append_comma (u r : Line) (hu : ',' ∉ u) :
    lineKey (u ++ ',' :: r) = u := by
  simp [lineKey, splitFields_append_comma u r hu]

theorem lineKey_no_comma (l : Line) : ',' ∉ lineKey l := by
  unfold lineKey
  cases h : splitFields l with
  | nil => exact absurd h (splitFields_ne_nil l)
  | cons f fs =>
    simp only [List.headD_cons]
    exact mem_splitFields_no_comma l f (by rw [h]; exact List.mem_cons_self f fs)

theorem lineKey_joinComma5 (u a b c d : Line) (hu : ',' ∉ u) :
    lineKey (joinComma [u, a, b, c, d]) = u := by
  have h : joinComma [u, a, b, c, d] = u ++ ',' :: joinComma [a, b, c, d] := rfl
  rw [h, lineKey_append_comma u _ hu]

theorem lastField_eq_of_splitFields {l : Line} {u a b c d : Line}
    (h : splitFields l = [u, a, b, c, d]) : lastField l = d := by
  simp [lastField, h]

theorem lineKey_eq_of_splitFields {l : Line} {u a b c d : Line}
    (h : splitFields l = [u, a, b, c, d]) : lineKey l = u := by
  simp [lineKey, h]

/-! Facts about the patch applier. -/

/-- The mutations still pending, in order: the front buffer followed by the
unloaded staged mutation files. -/
def pendingMutations (ps : PatchState) : List PutDeleteUpdate :=
  ps.puts_deletes ++ ps.puts_deletes_files.flatten

/-- The front-mutation step never changes the uuid key of the line:
a put rewrite rebuilds the line with the matching uuid as first field. -/
theorem apply_front_key_preserved {ps : PatchState} {rl : ReadResultLine}
    {ps1 : PatchState} {rl1 : ReadResultLine}
    (h : apply_front_mutation ps rl = some (ps1, rl1)) :
    lineKey rl1.line = lineKey rl.line := by
  unfold apply_front_mutation at h
  cases hq : ps.puts_deletes with
  | nil =>
    rw [hq] at h
    simp only [Option.some.injEq, Prod.mk.injEq] at h
    rw [← h.2]
  | cons update rest =>
    rw [hq] at h
    dsimp only at h
    by_cases hne : update.uuid ≠ lineKey rl.line
    · rw [if_pos hne] at h
      simp only [Option.some.injEq, Prod.mk.injEq] at h
      rw [← h.2]
    · rw [if_neg hne] at h
      push_neg at hne
      by_cases hdel : update.delete = true
      · rw [if_pos hdel] at h
        simp only [Option.some.injEq, Prod.mk.injEq] at h
        rw [← h.2]
      · rw [if_neg hdel] at h
        cases hput : update.put with
        | none => rw [hput] at h; exact absurd h (by simp)
        | some put =>
          rw [hput] at h
          simp only [Option.some.injEq, Prod.mk.injEq] at h
          rw [← h.2]
          simp only []
          rw [lineKey_joinComma5]
          · exact hne
          · rw [hne]; exact lineKey_no_comma rl.line

/-- The patch applier never changes the uuid key of the line it is given. -/
theorem update_key_preserved {ps : PatchState} {rl : ReadResultLine}
    {ps1 : PatchState} {rl1 : ReadResultLine}
    (h : update_post_line_with_put_delete ps rl = some (ps1, rl1)) :
    lineKey rl1.line = lineKey rl.line := by
  unfold update_post_line_with_put_delete at h
  by_cases hs : ps.should_update_results
  · rw [if_pos hs] at h
    exact apply_front_key_preserved h
  · rw [if_neg hs] at h
    simp only [Option.some.injEq, Prod.mk.injEq] at h
    rw [← h.2]

/-! Facts about file contents and lines. -/

theorem splitFields_no_comma : ∀ l : Line, ',' ∉ l → splitFields l = [l] := by
  intro l
  induction l with
  | nil => intro _; rfl
  | cons c cs ih =>
    intro h
    have hc : ¬ c = ',' := by
      intro hc; exact h (by rw [hc]; exact List.mem_cons_self ',' cs)
    have hcs : ',' ∉ cs := by
      intro hm; exact h (List.mem_cons_of_mem c hm)
    simp only [splitFields, if_neg hc, ih hcs]

theorem contentToLines_append_newline : ∀ (u r : List Char), '\n' ∉ u →
    contentToLines (u ++ '\n' :: r) = u :: contentToLines r := by
  intro u
  induction u with
  | nil => intro r _; simp [contentToLines]
  | cons x xs ih =>
    intro r hu
    have hx : ¬ x = '\n' := by
      intro h; exact hu (by rw [h]; exact List.mem_cons_self '\n' xs)
    have hxs : '\n' ∉ xs := by
      intro h; exact hu (List.mem_cons_of_mem x h)
    simp only [List.cons_append, contentToLines, if_neg hx, List.append_eq, ih r hxs]

/-- Reading back what a sequence of `writeln!` calls wrote recovers exactly
the written lines, provided no written line contains a newline. -/
theorem contentToLines_linesToContent : ∀ ls : List Line,
    (∀ l ∈ ls, '\n' ∉ l) → contentToLines (linesToContent ls) = ls := by
  intro ls
  induction ls with
  | nil => intro _; rfl
  | cons l ls ih =>
    intro h
    have hl : '\n' ∉ l := h l (List.mem_cons_self l ls)
    have hls : ∀ x ∈ ls, '\n' ∉ x := fun x hx => h x (List.mem_cons_of_mem l hx)
    simp only [linesToContent, contentToLines_append_newline l _ hl, ih hls]

/-- Lines obtained by reading a file never contain a newline character. -/
theorem mem_contentToLines_no_newline : ∀ (c : List Char) (l : Line),
    l ∈ contentToLines c → '\n' ∉ l := by
  intro c
  induction c with
  | nil => intro l hl; simp [contentToLines] at hl
  | cons x xs ih =>
    intro l hl
    by_cases hx : x = '\n'
    · simp only [contentToLines, if_pos hx] at hl
      rcases List.mem_cons.mp hl with h | h
      · simp [h]
      · exact ih l h
    · simp only [contentToLines, if_neg hx] at hl
      cases h : contentToLines xs with
      | nil =>
        rw [h] at hl
        simp only [List.mem_singleton] at hl
        subst hl
        intro hm
        rcases List.mem_cons.mp hm with h1 | h1
        · exact hx h1.symm
        · simp at h1
      | cons g gs =>
        rw [h] at hl
        rcases List.mem_cons.mp hl with h1 | h1
        · subst h1
          intro hm
          rcases List.mem_cons.mp hm with h2 | h2
          · exact hx h2.symm
          · exact ih g (by rw [h]; exact List.mem_cons_self g gs) h2
        · exact ih l (by rw [h]; exact List.mem_cons_of_mem g h1)

theorem linesToContent_append (a b : List Line) :
    linesToContent (a ++ b) = linesToContent a ++ linesToContent b := by
  induction a with
  | nil => rfl
  | cons l ls ih => simp [linesToContent, ih]

theorem overlay_nil (w : List Char) : overlay w [] = w := by
  simp [overlay]

theorem overlay_length_le {w old : List Char} (h : old.length ≤ w.length) :
    overlay w old = w := by
  simp [overlay, List.drop_eq_nil_of_le h]

/-- Content of file `n` after a run result, `none` when the run failed or
the file does not exist. -/
def fsFile (r : Option Fs) (n : String) : Option (List Char) :=
  r.bind (fun fs => fs n)

/-- C9: for every run whose pagination metadata reports `total_pages = 0`,
the dispatch loop of `get_all_pagination` spawns no worker task at all — so
no page is fetched and no merge can run (both happen only inside worker
tasks) — and the file system, in particular the dataset file, is unchanged
when `pool.join()` returns. -/
theorem C9_zero_pages_noop (total_pages : Nat) (worker : Fs → Fs) (fs : Fs)
    (h : total_pages = 0) :
    spawned_tasks total_pages = [] ∧
    get_all_pagination_run total_pages worker fs = fs ∧
    get_all_pagination_run total_pages worker fs RESULT_CSV_NAME = fs RESULT_CSV_NAME := by
  subst h
  refine ⟨rfl, rfl, rfl⟩

theorem C9_zero_pages_noop_witness :
    spawned_tasks 0 = [] ∧
    get_all_pagination_run 0 (fun fs => fs) (fun _ => none) = (fun _ => none) ∧
    get_all_pagination_run 0 (fun fs => fs) (fun _ => none) RESULT_CSV_NAME =
      (fun _ : String => (none : Option (List Char))) RESULT_CSV_NAME :=
  C9_zero_pages_noop 0 (fun fs => fs) (fun _ => none) rfl

/-- C4 (amended): whenever the front buffered mutation's uuid differs from
the current line's key — in particular when it is strictly smaller, i.e. a
mutation for a uuid absent from the old dataset — the applier pushes the
mutation back to the front of the buffer and reports the line unmatched: the
mutation is not removed, no retry against later buffered mutations happens,
and the whole applier state and line are returned unchanged. -/
theorem C4_amended_push_back (ps : PatchState) (rl : ReadResultLine)
    (m : PutDeleteUpdate) (rest : List PutDeleteUpdate)
    (hs : ps.should_update_results = true)
    (hq : ps.puts_deletes = m :: rest)
    (hne : m.uuid ≠ lineKey rl.line) :
    update_post_line_with_put_delete ps rl = some (ps, rl) := by
  unfold update_post_line_with_put_delete load_more_puts_deletes apply_front_mutation
  rw [if_pos hs, hq]
  simp only [List.isEmpty_cons, Bool.false_eq_true, if_false]
  rw [hq]
  dsimp only
  rw [if_pos hne]

theorem C4_amended_push_back_witness :
    ({ should_update_results := true,
       puts_deletes := [{ uuid := "0".toList, put := none, delete := true }],
       puts_deletes_files := [] } : PatchState).should_update_results = true ∧
    update_post_line_with_put_delete
      { should_update_results := true,
        puts_deletes := [{ uuid := "0".toList, put := none, delete := true }],
        puts_deletes_files := [] }
      (ReadResultLine.new "1,a,a,0,".toList) =
      some ({ should_update_results := true,
              puts_deletes := [{ uuid := "0".toList, put := none, delete := true }],
              puts_deletes_files := [] },
            ReadResultLine.new "1,a,a,0,".toList) :=
  ⟨rfl, C4_amended_push_back _ _ _ _ rfl rfl (by decide)⟩

/-- C4 counterexample: a pending mutation whose uuid `"0"` is strictly less
than the consulted line's key `"1"`. The claim says the applier removes it
from the pending buffer and retries with the next buffered mutation; the
code instead pushes it back — the buffer still holds the mutation (it does
not become the claimed tail `[]`) and the line is reported unmatched. -/
theorem C4_counterexample :
    ltLine "0".toList (lineKey "1,a,a,0,".toList) = true ∧
    update_post_line_with_put_delete
      { should_update_results := true,
        puts_deletes := [{ uuid := "0".toList, put := none, delete := true }],
        puts_deletes_files := [] }
      (ReadResultLine.new "1,a,a,0,".toList) =
      some ({ should_update_results := true,
              puts_deletes := [{ uuid := "0".toList, put := none, delete := true }],
              puts_deletes_files := [] },
            ReadResultLine.new "1,a,a,0,".toList) ∧
    (update_post_line_with_put_delete
      { should_update_results := true,
        puts_deletes := [{ uuid := "0".toList, put := none, delete := true }],
        puts_deletes_files := [] }
      (ReadResultLine.new "1,a,a,0,".toList)).map
        (fun r => r.1.puts_deletes) ≠ some [] := by
  refine ⟨by decide, by decide, by decide⟩

theorem splitFields_joinComma5 (u a b c d : Line)
    (hu : ',' ∉ u) (ha : ',' ∉ a) (hb : ',' ∉ b) (hc : ',' ∉ c) (hd : ',' ∉ d) :
    splitFields (joinComma [u, a, b, c, d]) = [u, a, b, c, d] := by
  have e1 : joinComma [u, a, b, c, d] =
      u ++ ',' :: (a ++ ',' :: (b ++ ',' :: (c ++ ',' :: d))) := by
    simp [joinComma]
  rw [e1, splitFields_append_comma _ _ hu, splitFields_append_comma _ _ ha,
    splitFields_append_comma _ _ hb, splitFields_append_comma _ _ hc,
    splitFields_no_comma _ hd]

/-- C5: applying a matching put mutation to an old-dataset line of the form
`uuid,author,message,likes,image` (fields free of commas; a line read by
`.lines()` cannot contain a newline) rewrites the line to carry the
mutation's author, message and likes, the same uuid, and — when the
payload's image is absent — the line's old image field, while a present
payload image (the empty string included) overwrites it. The line is marked
updated, is not marked for deletion, and the mutation is consumed. -/
theorem C5_put_semantics (ps : PatchState) (u a b k img : Line)
    (put : ClientPutUpdate) (rest : List PutDeleteUpdate)
    (hu : ',' ∉ u) (ha : ',' ∉ a) (hb : ',' ∉ b) (hk : ',' ∉ k) (himg : ',' ∉ img)
    (hs : ps.should_update_results = true)
    (hq : ps.puts_deletes = { uuid := u, put := some put, delete := false } :: rest) :
    update_post_line_with_put_delete ps (ReadResultLine.new (joinComma [u, a, b, k, img])) =
      some ({ ps with puts_deletes := rest },
        { line := joinComma [u, put.author, put.message, intChars put.likes,
            put.image.getD img],
          updated := true, mark_for_deletion := false }) := by
  have hsplit : splitFields (joinComma [u, a, b, k, img]) = [u, a, b, k, img] :=
    splitFields_joinComma5 u a b k img hu ha hb hk himg
  have hkey : lineKey (joinComma [u, a, b, k, img]) = u := by
    simp [lineKey, hsplit]
  have hlast : lastField (joinComma [u, a, b, k, img]) = img := by
    simp [lastField, hsplit]
  unfold update_post_line_with_put_delete load_more_puts_deletes apply_front_mutation
  rw [if_pos hs, hq]
  simp only [List.isEmpty_cons, Bool.false_eq_true, if_false]
  rw [hq]
  dsimp only [ReadResultLine.new]
  rw [hkey]
  simp only [ne_eq, not_true_eq_false, if_false, Bool.false_eq_true]
  rw [hlast]
  cases hi : put.image with
  | none => simp
  | some i => simp

theorem C5_put_semantics_witness :
    joinComma ["1".toList, "a".toList, "b".toList, "0".toList, "xx".toList] =
      "1,a,b,0,xx".toList ∧
    update_post_line_with_put_delete
      { should_update_results := true,
        puts_deletes :=
          [{ uuid := "1".toList,
             put := some ⟨"x".toList, "y".toList, (6 : Int), none⟩,
             delete := false }],
        puts_deletes_files := [] }
      (ReadResultLine.new (joinComma ["1".toList, "a".toList, "b".toList,
        "0".toList, "xx".toList])) =
      some ({ should_update_results := true, puts_deletes := [],
              puts_deletes_files := [] },
        { line := "1,x,y,6,xx".toList, updated := true, mark_for_deletion := false }) := by
  refine ⟨by decide, ?_⟩
  have h := C5_put_semantics
    { should_update_results := true,
      puts_deletes :=
        [{ uuid := "1".toList,
           put := some ⟨"x".toList, "y".toList, (6 : Int), none⟩,
           delete := false }],
      puts_deletes_files := [] }
    "1".toList "a".toList "b".toList "0".toList "xx".toList
    ⟨"x".toList, "y".toList, (6 : Int), none⟩
    [] (by decide) (by decide) (by decide) (by decide) (by decide) rfl rfl
  rw [h]
  decide

theorem fresh_callers_from_length : ∀ (ws : List Nat) (incs total : Nat),
    incs + ws.length = total → incs < total →
    (fresh_callers_from total incs ws).length = 1 := by
  intro ws
  induction ws with
  | nil =>
    intro incs total hsum hlt
    simp at hsum
    omega
  | cons w rest ih =>
    intro incs total hsum hlt
    by_cases hterm : incs + 1 = total
    · have hrest : rest.length = 0 := by
        simp [List.length_cons] at hsum
        omega
      have hrest' : rest = [] := List.length_eq_zero.mp hrest
      subst hrest'
      simp [fresh_callers_from, if_pos hterm]
    · have hsum' : (incs + 1) + rest.length = total := by
        simp [List.length_cons] at hsum
        omega
      have hlt' : incs + 1 < total := by
        have : incs + 1 ≤ total := by omega
        omega
      simp only [fresh_callers_from, if_neg hterm, List.nil_append]
      exact ih (incs + 1) total hsum' hlt'

/-- C3 (amended): on the Fresh path, where the increment and the comparison
against `total_pages` are performed under one acquisition of the counter
lock (magic.rs 73-79), every complete schedule of `total_pages ≥ 1` worker
steps produces exactly one `merge_posts` invocation — by the unique worker
whose increment reaches `total_pages`. (On the Cache path the merge-trigger
comparison re-reads the counter after the lock has been dropped, and several
workers can observe the terminal value; see the counterexample.) -/
theorem C3_amended_fresh_unique_trigger (total : Nat) (ws : List Nat)
    (hlen : ws.length = total) (hpos : 1 ≤ total) :
    (fresh_merge_callers total ws).length = 1 := by
  unfold fresh_merge_callers
  exact fresh_callers_from_length ws 0 total (by omega) (by omega)

theorem C3_amended_fresh_unique_trigger_witness :
    ([7, 8].length = 2 ∧ 1 ≤ 2) ∧ (fresh_merge_callers 2 [7, 8]).length = 1 :=
  ⟨⟨by decide, by decide⟩, C3_amended_fresh_unique_trigger 2 [7, 8] (by decide) (by decide)⟩

/-- C3 counterexample: a Cache run with `total_pages = 2` and two workers.
Both workers stage and increment under the lock (events `inc 0`, `inc 1`,
reaching the terminal counter value 2), and afterwards each re-acquires the
lock for the comparison (events `chk 0`, `chk 1`; magic.rs 120 re-reads the
counter after the increment lock was dropped at magic.rs 105). Both re-reads
observe `2 = total_pages`, so both workers invoke `State::merge`: the merge
executes twice, not exactly once. -/
theorem C3_counterexample :
    cache_merge_callers 2
      [WorkerEvent.inc 0, WorkerEvent.inc 1, WorkerEvent.chk 0, WorkerEvent.chk 1] =
      [0, 1] ∧
    (cache_merge_callers 2
      [WorkerEvent.inc 0, WorkerEvent.inc 1, WorkerEvent.chk 0, WorkerEvent.chk 1]).length ≠ 1 := by
  refine ⟨by decide, by decide⟩

theorem linesToContent_flatten (fss : List (List Line)) :
    linesToContent fss.flatten = (fss.map linesToContent).flatten := by
  induction fss with
  | nil => rfl
  | cons f rest ih => simp [linesToContent_append, ih]

/-- C10: both dataset-writing paths open their output file with
`create(true).write(true)` and no truncation. `merge_posts` opens the
dataset file itself this way, so what it installs is its written content
with the prior dataset's trailing bytes surviving past it — in particular,
with shorter written content the installed dataset is not the written
content. The full merge opens the `merge.csv` scratch file the same way, so
the file installed by the rename is the merge output with a stale scratch
file's trailing bytes surviving past it. -/
theorem C10_no_truncate_survival
    (post_files : List (List Line)) (puts_deletes_files : List (List PutDeleteUpdate))
    (fs : Fs) (oldContent staleContent : List Char) (out : List Line)
    (hold : fs RESULT_CSV_NAME = some oldContent)
    (hstale : fs MERGE_FILE_NAME = some staleContent)
    (hmerge : merge_lines (contentToLines oldContent) post_files puts_deletes_files = some out)
    (hshort : (linesToContent (merge_posts_lines post_files)).length < oldContent.length)
    (hshort2 : (linesToContent out).length < staleContent.length) :
    merge_postsFS post_files fs RESULT_CSV_NAME =
      some (linesToContent (merge_posts_lines post_files) ++
        oldContent.drop (linesToContent (merge_posts_lines post_files)).length) ∧
    merge_postsFS post_files fs RESULT_CSV_NAME ≠
      some (linesToContent (merge_posts_lines post_files)) ∧
    fsFile (mergeFS post_files puts_deletes_files fs) RESULT_CSV_NAME =
      some (linesToContent out ++ staleContent.drop (linesToContent out).length) ∧
    fsFile (mergeFS post_files puts_deletes_files fs) RESULT_CSV_NAME ≠
      some (linesToContent out) := by
  have hwrite : merge_postsFS post_files fs RESULT_CSV_NAME =
      some (linesToContent (merge_posts_lines post_files) ++
        oldContent.drop (linesToContent (merge_posts_lines post_files)).length) := by
    simp [merge_postsFS, Fs.update, overlay, hold]
  have hinstall : fsFile (mergeFS post_files puts_deletes_files fs) RESULT_CSV_NAME =
      some (linesToContent out ++ staleContent.drop (linesToContent out).length) := by
    simp [mergeFS, hold, hmerge, fsFile, Fs.update, overlay, hstale]
  refine ⟨hwrite, ?_, hinstall, ?_⟩
  · rw [hwrite]
    intro hcontra
    have hlen := congrArg (fun o => (o.getD []).length) hcontra
    simp [List.length_drop] at hlen
    omega
  · rw [hinstall]
    intro hcontra
    have hlen := congrArg (fun o => (o.getD []).length) hcontra
    simp [List.length_drop] at hlen
    omega

theorem C10_no_truncate_survival_witness :
    ((Fs.update (Fs.update (fun _ => none) RESULT_CSV_NAME
        (some "1,a,a,0,\n9,z,z,9,\n".toList)) MERGE_FILE_NAME
        (some "0,x,x,0,\n0,x,x,0,\n0,x,x,0,\nZZZZ".toList)) RESULT_CSV_NAME =
      some "1,a,a,0,\n9,z,z,9,\n".toList) ∧
    merge_postsFS [["2,b,b,0,".toList]]
      (Fs.update (Fs.update (fun _ => none) RESULT_CSV_NAME
        (some "1,a,a,0,\n9,z,z,9,\n".toList)) MERGE_FILE_NAME
        (some "0,x,x,0,\n0,x,x,0,\n0,x,x,0,\nZZZZ".toList)) RESULT_CSV_NAME =
      some (linesToContent (merge_posts_lines [["2,b,b,0,".toList]]) ++
        "1,a,a,0,\n9,z,z,9,\n".toList.drop
          (linesToContent (merge_posts_lines [["2,b,b,0,".toList]])).length) ∧
    merge_postsFS [["2,b,b,0,".toList]]
      (Fs.update (Fs.update (fun _ => none) RESULT_CSV_NAME
        (some "1,a,a,0,\n9,z,z,9,\n".toList)) MERGE_FILE_NAME
        (some "0,x,x,0,\n0,x,x,0,\n0,x,x,0,\nZZZZ".toList)) RESULT_CSV_NAME ≠
      some (linesToContent (merge_posts_lines [["2,b,b,0,".toList]])) ∧
    fsFile (mergeFS [["2,b,b,0,".toList]] []
      (Fs.update (Fs.update (fun _ => none) RESULT_CSV_NAME
        (some "1,a,a,0,\n9,z,z,9,\n".toList)) MERGE_FILE_NAME
        (some "0,x,x,0,\n0,x,x,0,\n0,x,x,0,\nZZZZ".toList))) RESULT_CSV_NAME =
      some (linesToContent ["1,a,a,0,".toList, "2,b,b,0,".toList, "9,z,z,9,".toList] ++
        "0,x,x,0,\n0,x,x,0,\n0,x,x,0,\nZZZZ".toList.drop
          (linesToContent ["1,a,a,0,".toList, "2,b,b,0,".toList, "9,z,z,9,".toList]).length) := by
  have h := C10_no_truncate_survival [["2,b,b,0,".toList]] []
    (Fs.update (Fs.update (fun _ => none) RESULT_CSV_NAME
      (some "1,a,a,0,\n9,z,z,9,\n".toList)) MERGE_FILE_NAME
      (some "0,x,x,0,\n0,x,x,0,\n0,x,x,0,\nZZZZ".toList))
    "1,a,a,0,\n9,z,z,9,\n".toList "0,x,x,0,\n0,x,x,0,\n0,x,x,0,\nZZZZ".toList
    ["1,a,a,0,".toList, "2,b,b,0,".toList, "9,z,z,9,".toList]
    (by decide) (by decide) (by decide) (by decide) (by decide)
  exact ⟨by decide, h.1, h.2.1, h.2.2.1⟩

/-- C2 (amended): only the Cache-kind full-merge path (`State::merge`)
writes exclusively to the `merge.csv` scratch file and installs it over the
dataset file by a single rename, so on that path a failure at any point
before the rename leaves the previously-installed dataset file unchanged.
The Fresh-kind path and the first-run fast path (`State::merge_posts`) write
the dataset file directly with `create(true).write(true)` and no rename, so
a failure mid-write there can leave the dataset partially overwritten (see
the counterexample). -/
theorem C2_amended_scratch_atomicity
    (post_files : List (List Line)) (puts_deletes_files : List (List PutDeleteUpdate))
    (fs : Fs) (out : List Line) (k : Nat) (oldContent : List Char)
    (hold : fs RESULT_CSV_NAME = some oldContent)
    (hmerge : merge_lines (contentToLines oldContent) post_files puts_deletes_files = some out) :
    merge_partialFS out k fs RESULT_CSV_NAME = fs RESULT_CSV_NAME ∧
    fsFile (mergeFS post_files puts_deletes_files fs) RESULT_CSV_NAME =
      some (overlay (linesToContent out) ((fs MERGE_FILE_NAME).getD [])) ∧
    fsFile (mergeFS post_files puts_deletes_files fs) MERGE_FILE_NAME = none := by
  refine ⟨?_, ?_, ?_⟩
  · have hne : RESULT_CSV_NAME ≠ MERGE_FILE_NAME := by decide
    simp [merge_partialFS, Fs.update, hne]
  · simp [mergeFS, hold, hmerge, fsFile, Fs.update]
  · have hne : MERGE_FILE_NAME ≠ RESULT_CSV_NAME := by decide
    simp [mergeFS, hold, hmerge, fsFile, Fs.update, hne]

theorem C2_amended_scratch_atomicity_witness :
    merge_partialFS ["1,a,a,0,".toList, "2,b,b,0,".toList] 1
      (Fs.update (fun _ => none) RESULT_CSV_NAME (some "1,a,a,0,\n".toList))
      RESULT_CSV_NAME =
      (Fs.update (fun _ => none) RESULT_CSV_NAME (some "1,a,a,0,\n".toList))
      RESULT_CSV_NAME ∧
    fsFile (mergeFS [["2,b,b,0,".toList]] []
      (Fs.update (fun _ => none) RESULT_CSV_NAME (some "1,a,a,0,\n".toList)))
      RESULT_CSV_NAME =
      some (overlay (linesToContent ["1,a,a,0,".toList, "2,b,b,0,".toList])
        (((Fs.update (fun _ => none) RESULT_CSV_NAME (some "1,a,a,0,\n".toList))
          MERGE_FILE_NAME).getD [])) ∧
    fsFile (mergeFS [["2,b,b,0,".toList]] []
      (Fs.update (fun _ => none) RESULT_CSV_NAME (some "1,a,a,0,\n".toList)))
      MERGE_FILE_NAME = none :=
  C2_amended_scratch_atomicity [["2,b,b,0,".toList]] []
    (Fs.update (fun _ => none) RESULT_CSV_NAME (some "1,a,a,0,\n".toList))
    ["1,a,a,0,".toList, "2,b,b,0,".toList] 1 "1,a,a,0,\n".toList
    (by decide) (by decide)

/-- C2 counterexample: a Cache first-run (or Fresh) terminal worker runs
`merge_posts`, which writes the dataset file `results.csv` directly — no
scratch file, no rename. With a prior dataset `"9,z,z,9,\n"` installed and
two staged record files, a failure while opening the second staged file
aborts the run after the first file's lines have been written: the dataset
file now reads `"1,a,b,0,\n"`, not its previous content — a failing run did
not leave the previously-installed dataset file byte-for-byte unchanged. -/
theorem C2_counterexample :
    (Fs.update (fun _ => none) RESULT_CSV_NAME (some "9,z,z,9,\n".toList))
      RESULT_CSV_NAME = some "9,z,z,9,\n".toList ∧
    merge_posts_partialFS [["1,a,b,0,".toList], ["2,c,d,0,".toList]] 1
      (Fs.update (fun _ => none) RESULT_CSV_NAME (some "9,z,z,9,\n".toList))
      RESULT_CSV_NAME = some "1,a,b,0,\n".toList ∧
    merge_posts_partialFS [["1,a,b,0,".toList], ["2,c,d,0,".toList]] 1
      (Fs.update (fun _ => none) RESULT_CSV_NAME (some "9,z,z,9,\n".toList))
      RESULT_CSV_NAME ≠ some "9,z,z,9,\n".toList := by
  refine ⟨by decide, by decide, by decide⟩

/-- C7: on a run that starts with no prior dataset file (`first_sync` is
computed from the dataset file's absence, magic.rs 28), the terminal worker
of either kind runs `merge_posts` — Fresh unconditionally, Cache through the
first-sync fast path — so the installed dataset file is exactly the
concatenation of all staged record files in ascending page-number order,
and the staged mutation files play no part in the result. -/
theorem C7_first_run_concat
    (kind : PaginationType) (post_files : List (List Line))
    (puts_deletes_files : List (List PutDeleteUpdate)) (fs : Fs)
    (habsent : fs RESULT_CSV_NAME = none) :
    terminal_step kind ((fs RESULT_CSV_NAME).isNone) post_files puts_deletes_files fs =
      some (merge_postsFS post_files fs) ∧
    fsFile (terminal_step kind ((fs RESULT_CSV_NAME).isNone) post_files
        puts_deletes_files fs) RESULT_CSV_NAME =
      some (linesToContent post_files.flatten) ∧
    linesToContent post_files.flatten = (post_files.map linesToContent).flatten := by
  have hfirst : (fs RESULT_CSV_NAME).isNone = true := by rw [habsent]; rfl
  have hstep : terminal_step kind ((fs RESULT_CSV_NAME).isNone) post_files
      puts_deletes_files fs = some (merge_postsFS post_files fs) := by
    cases kind with
    | Fresh => rfl
    | Cache => simp [terminal_step, hfirst]
  refine ⟨hstep, ?_, linesToContent_flatten post_files⟩
  rw [hstep]
  simp [fsFile, merge_postsFS, Fs.update, merge_posts_lines, habsent, overlay]

theorem C7_first_run_concat_witness :
    ((fun _ : String => (none : Option (List Char))) RESULT_CSV_NAME = none) ∧
    (terminal_step PaginationType.Cache
        (((fun _ : String => (none : Option (List Char))) RESULT_CSV_NAME).isNone)
        [["1,a,a,0,".toList], ["2,b,b,0,".toList]]
        [[{ uuid := "9".toList, put := none, delete := true }]]
        (fun _ => none) =
      some (merge_postsFS [["1,a,a,0,".toList], ["2,b,b,0,".toList]] (fun _ => none)) ∧
    fsFile (terminal_step PaginationType.Cache
        (((fun _ : String => (none : Option (List Char))) RESULT_CSV_NAME).isNone)
        [["1,a,a,0,".toList], ["2,b,b,0,".toList]]
        [[{ uuid := "9".toList, put := none, delete := true }]]
        (fun _ => none)) RESULT_CSV_NAME =
      some (linesToContent [["1,a,a,0,".toList], ["2,b,b,0,".toList]].flatten) ∧
    linesToContent [["1,a,a,0,".toList], ["2,b,b,0,".toList]].flatten =
      ([["1,a,a,0,".toList], ["2,b,b,0,".toList]].map linesToContent).flatten) :=
  ⟨rfl, C7_first_run_concat PaginationType.Cache
    [["1,a,a,0,".toList], ["2,b,b,0,".toList]]
    [[{ uuid := "9".toList, put := none, delete := true }]]
    (fun _ => none) rfl⟩

theorem update_noop_of_not_should {ps : PatchState} (rl : ReadResultLine)
    (hs : ps.should_update_results = false) :
    update_post_line_with_put_delete ps rl = some (ps, rl) := by
  unfold update_post_line_with_put_delete
  rw [hs]
  simp

theorem drain_results_of_not_should (ls : List Line) (ps : PatchState)
    (hs : ps.should_update_results = false) :
    drain_results ps ls = some ls := by
  induction ls with
  | nil => rfl
  | cons l ls ih =>
    simp only [drain_results, update_noop_of_not_should (ReadResultLine.new l) hs, ih]
    rfl

theorem sumLens_replicate_nil (k : Nat) : sumLens (List.replicate k []) = 0 := by
  simp [sumLens, List.map_replicate, List.sum_replicate]

/-- A Cache merge whose staged record files are all empty and whose run
registered no staged mutation file writes exactly the old dataset lines to
the scratch file. -/
theorem merge_lines_empty_staged (ls : List Line) (k : Nat) :
    merge_lines ls (List.replicate k []) [] = some ls := by
  have hps : (⟨!([] : List (List PutDeleteUpdate)).isEmpty, [],
      []⟩ : PatchState).should_update_results = false := rfl
  cases k with
  | zero =>
    simp only [List.replicate, merge_lines]
    exact drain_results_of_not_should ls _ hps
  | succ n =>
    rw [List.replicate_succ]
    cases ls with
    | nil =>
      simp only [merge_lines, List.isEmpty_nil, Bool.not_true]
      have hm : (⟨[], none, [], List.replicate n [], none,
          ⟨false, [], []⟩, []⟩ : MergeLoopState).measure = 0 := by
        simp [MergeLoopState.measure, optCount, sumLens_replicate_nil]
      rw [hm]
      rfl
    | cons l ls1 =>
      simp only [merge_lines, List.isEmpty_nil, Bool.not_true]
      have hm : (⟨l :: ls1, none, [], List.replicate n [], none,
          ⟨false, [], []⟩, []⟩ : MergeLoopState).measure = ls1.length + 1 := by
        simp [MergeLoopState.measure, optCount, sumLens_replicate_nil]
      rw [hm]
      have hnext : next_cached_post_line none [] (List.replicate n ([] : List Line)) =
          none := by
        cases n with
        | zero => rfl
        | succ m => rw [List.replicate_succ]; rfl
      simp [merge_loop, next_result_line, ReadResultLine.new,
        update_post_line_with_put_delete, hnext, drain_results_of_not_should]

/-- Core of C8: with all staged record files empty, no staged mutation file,
a dataset file holding exactly newline-terminated lines and no stale scratch
content longer than it, the Cache merge reinstalls a byte-identical dataset
file and removes the scratch file. -/
theorem mergeFS_empty_staged (fs : Fs) (oldLines : List Line) (k : Nat)
    (hold : fs RESULT_CSV_NAME = some (linesToContent oldLines))
    (hnl : ∀ l ∈ oldLines, '\n' ∉ l)
    (hstale : ((fs MERGE_FILE_NAME).getD []).length ≤ (linesToContent oldLines).length) :
    mergeFS (List.replicate k []) [] fs =
      some (Fs.update (Fs.update fs MERGE_FILE_NAME none) RESULT_CSV_NAME
        (some (linesToContent oldLines))) := by
  simp only [mergeFS, hold]
  rw [contentToLines_linesToContent oldLines hnl, merge_lines_empty_staged oldLines k]
  dsimp only
  rw [overlay_length_le hstale]

/-- C8 (amended): a Cache-kind merge in which every staged record file is
empty and no staging mutation file was registered reinstalls a byte-identical
dataset file, provided the dataset file consists of newline-terminated lines
(as every dataset written by this program does) and any pre-existing
`merge.csv` scratch content is no longer than the dataset content — in
particular whenever no stale scratch file exists. Since the run itself
removes `merge.csv` by renaming it, a second such run on its output is
automatically in that situation, so two consecutive empty-delta Cache syncs
yield byte-identical dataset files. -/
theorem C8_amended_idempotence (fs : Fs) (oldLines : List Line) (k k2 : Nat)
    (hold : fs RESULT_CSV_NAME = some (linesToContent oldLines))
    (hnl : ∀ l ∈ oldLines, '\n' ∉ l)
    (hstale : ((fs MERGE_FILE_NAME).getD []).length ≤ (linesToContent oldLines).length) :
    fsFile (mergeFS (List.replicate k []) [] fs) RESULT_CSV_NAME =
      some (linesToContent oldLines) ∧
    fsFile (mergeFS (List.replicate k []) [] fs) MERGE_FILE_NAME = none ∧
    fsFile ((mergeFS (List.replicate k []) [] fs).bind
        (mergeFS (List.replicate k2 []) [])) RESULT_CSV_NAME =
      some (linesToContent oldLines) := by
  have h1 := mergeFS_empty_staged fs oldLines k hold hnl hstale
  have hres1 : (Fs.update (Fs.update fs MERGE_FILE_NAME none) RESULT_CSV_NAME
      (some (linesToContent oldLines))) RESULT_CSV_NAME =
      some (linesToContent oldLines) := by
    simp [Fs.update]
  have hmrg1 : (Fs.update (Fs.update fs MERGE_FILE_NAME none) RESULT_CSV_NAME
      (some (linesToContent oldLines))) MERGE_FILE_NAME = none := by
    have hne : MERGE_FILE_NAME ≠ RESULT_CSV_NAME := by decide
    simp [Fs.update, hne]
  refine ⟨?_, ?_, ?_⟩
  · simp [fsFile, h1, hres1]
  · simp [fsFile, h1, hmrg1]
  · have h2 := mergeFS_empty_staged
      (Fs.update (Fs.update fs MERGE_FILE_NAME none) RESULT_CSV_NAME
        (some (linesToContent oldLines))) oldLines k2 hres1 hnl
      (by rw [hmrg1]; simp)
    simp [fsFile, h1, h2, Fs.update]

theorem C8_amended_idempotence_witness :
    ((Fs.update (fun _ => none) RESULT_CSV_NAME (some "1,a,b,0,\n".toList))
      RESULT_CSV_NAME = some (linesToContent ["1,a,b,0,".toList])) ∧
    fsFile (mergeFS (List.replicate 1 []) []
      (Fs.update (fun _ => none) RESULT_CSV_NAME (some "1,a,b,0,\n".toList)))
      RESULT_CSV_NAME = some (linesToContent ["1,a,b,0,".toList]) ∧
    fsFile (mergeFS (List.replicate 1 []) []
      (Fs.update (fun _ => none) RESULT_CSV_NAME (some "1,a,b,0,\n".toList)))
      MERGE_FILE_NAME = none ∧
    fsFile ((mergeFS (List.replicate 1 []) []
      (Fs.update (fun _ => none) RESULT_CSV_NAME (some "1,a,b,0,\n".toList))).bind
        (mergeFS (List.replicate 3 []) [])) RESULT_CSV_NAME =
      some (linesToContent ["1,a,b,0,".toList]) := by
  have h := C8_amended_idempotence
    (Fs.update (fun _ => none) RESULT_CSV_NAME (some "1,a,b,0,\n".toList))
    ["1,a,b,0,".toList] 1 3 (by decide) (by decide) (by decide)
  exact ⟨by decide, h.1, h.2.1, h.2.2⟩

/-- C8 counterexample: the dataset file holds `"1,a,b,0,\n"`, but a stale
scratch file `merge.csv` — left behind by an earlier failed run — holds the
longer `"1,a,b,0,\nZZZZZ"`. A Cache merge with one empty staged record file
and no staged mutation file writes `"1,a,b,0,\n"` into the scratch file
without truncating it and installs it by rename: the resulting dataset file
is `"1,a,b,0,\nZZZZZ"`, not byte-identical to the dataset before the run. -/
theorem C8_counterexample :
    ((Fs.update (Fs.update (fun _ => none) RESULT_CSV_NAME
        (some "1,a,b,0,\n".toList)) MERGE_FILE_NAME (some "1,a,b,0,\nZZZZZ".toList))
      RESULT_CSV_NAME = some "1,a,b,0,\n".toList) ∧
    fsFile (mergeFS (List.replicate 1 []) []
      (Fs.update (Fs.update (fun _ => none) RESULT_CSV_NAME
        (some "1,a,b,0,\n".toList)) MERGE_FILE_NAME (some "1,a,b,0,\nZZZZZ".toList)))
      RESULT_CSV_NAME = some "1,a,b,0,\nZZZZZ".toList ∧
    some "1,a,b,0,\nZZZZZ".toList ≠ some "1,a,b,0,\n".toList := by
  refine ⟨by decide, by decide, by decide⟩

/-! Infrastructure for reasoning about the main merge loop. -/

/-- Old result lines still pending: the buffered line, then the reader. -/
def pendOldLines (buf : Option ReadResultLine) (reader : List Line) : List Line :=
  (match buf with | some r => [r.line] | none => []) ++ reader

/-- Staged post lines still pending: the buffered line, the open reader,
then the not-yet-opened staged files. -/
def pendNewLines (buf : Option Line) (reader : List Line)
    (files : List (List Line)) : List Line :=
  (match buf with | some l => [l] | none => []) ++ reader ++ files.flatten

theorem keysOf_append (a b : List Line) : keysOf (a ++ b) = keysOf a ++ keysOf b :=
  List.map_append lineKey a b

theorem keysOf_cons (x : Line) (l : List Line) :
    keysOf (x :: l) = lineKey x :: keysOf l := rfl

theorem optCount_eq_zero {α : Type} {o : Option α} (h : optCount o = 0) : o = none := by
  cases o with
  | none => rfl
  | some x => simp [optCount] at h

theorem next_result_line_none {buf : Option ReadResultLine} {reader : List Line}
    (h : next_result_line buf reader = none) : buf = none ∧ reader = [] := by
  cases buf with
  | some r => simp [next_result_line] at h
  | none =>
    cases reader with
    | nil => exact ⟨rfl, rfl⟩
    | cons l ls => simp [next_result_line] at h

theorem next_result_line_some {buf : Option ReadResultLine} {reader : List Line}
    {r : ReadResultLine} {reader1 : List Line}
    (h : next_result_line buf reader = some (r, reader1)) :
    pendOldLines buf reader = r.line :: reader1 ∧
    reader1.length + 1 = reader.length + optCount buf ∧
    ((∀ rr, buf = some rr → rr.updated = false → rr.mark_for_deletion = false) →
      r.updated = false → r.mark_for_deletion = false) := by
  cases buf with
  | some rr =>
    simp only [next_result_line, Option.some.injEq, Prod.mk.injEq] at h
    obtain ⟨h1, h2⟩ := h
    subst h1; subst h2
    exact ⟨rfl, by simp [optCount], fun hinv hu => hinv _ rfl hu⟩
  | none =>
    cases reader with
    | nil => simp [next_result_line] at h
    | cons l ls =>
      simp only [next_result_line, Option.some.injEq, Prod.mk.injEq] at h
      obtain ⟨h1, h2⟩ := h
      subst h1; subst h2
      refine ⟨rfl, by simp [optCount], ?_⟩
      intro _ _
      rfl

theorem next_cached_post_line_some {buf : Option Line} {reader : List Line}
    {files : List (List Line)} {c : Line} {reader1 : List Line}
    {files1 : List (List Line)}
    (h : next_cached_post_line buf reader files = some (c, reader1, files1)) :
    pendNewLines buf reader files = c :: (reader1 ++ files1.flatten) ∧
    1 + reader1.length + sumLens files1 = optCount buf + reader.length + sumLens files := by
  cases buf with
  | some l =>
    simp only [next_cached_post_line, Option.some.injEq, Prod.mk.injEq] at h
    obtain ⟨h1, h2, h3⟩ := h
    subst h1; subst h2; subst h3
    exact ⟨rfl, by simp [optCount]⟩
  | none =>
    cases reader with
    | cons x xs =>
      simp only [next_cached_post_line, Option.some.injEq, Prod.mk.injEq] at h
      obtain ⟨h1, h2, h3⟩ := h
      subst h1; subst h2; subst h3
      exact ⟨rfl, by simp [optCount]; omega⟩
    | nil =>
      cases files with
      | nil => simp [next_cached_post_line] at h
      | cons f rest =>
        cases f with
        | nil => simp [next_cached_post_line] at h
        | cons x xs =>
          simp only [next_cached_post_line, Option.some.injEq, Prod.mk.injEq] at h
          obtain ⟨h1, h2, h3⟩ := h
          subst h1; subst h2; subst h3
          constructor
          · simp [pendNewLines]
          · simp [optCount, sumLens]
            omega

theorem step_patch_key {p : PatchState} {r0 : ReadResultLine}
    {p1 : PatchState} {r1 : ReadResultLine}
    (h : (if r0.updated = true then some (p, r0)
          else update_post_line_with_put_delete p r0) = some (p1, r1)) :
    lineKey r1.line = lineKey r0.line := by
  by_cases hu : r0.updated = true
  · rw [if_pos hu] at h
    simp only [Option.some.injEq, Prod.mk.injEq] at h
    rw [← h.2]
  · rw [if_neg hu] at h
    exact update_key_preserved h

/-- Draining the old result lines only deletes or rewrites in place: the
written lines' keys form a sublist of the drained lines' keys. -/
theorem drain_results_key_sublist : ∀ (ls : List Line) (ps : PatchState)
    (r : List Line), drain_results ps ls = some r →
    (keysOf r).Sublist (keysOf ls) := by
  intro ls
  induction ls with
  | nil =>
    intro ps r h
    simp only [drain_results, Option.some.injEq] at h
    subst h
    simp
  | cons l ls1 ih =>
    intro ps r h
    simp only [drain_results] at h
    cases hup : update_post_line_with_put_delete ps (ReadResultLine.new l) with
    | none => rw [hup] at h; simp at h
    | some pr =>
      rw [hup] at h
      obtain ⟨ps1, rl⟩ := pr
      dsimp only at h
      cases hd : drain_results ps1 ls1 with
      | none => rw [hd] at h; simp at h
      | some rest =>
        rw [hd] at h
        dsimp only at h
        simp only [Option.some.injEq] at h
        subst h
        have hkey : lineKey rl.line = lineKey l := update_key_preserved hup
        have hsub := ih ps1 rest hd
        by_cases hm : rl.mark_for_deletion = true
        · rw [if_pos hm]
          exact hsub.trans (List.sublist_cons_self (lineKey l) (keysOf ls1))
        · rw [if_neg hm]
          rw [keysOf_cons, keysOf_cons, hkey]
          exact hsub.cons₂ (lineKey l)

/-- Sortedness invariant of the main merge loop: if the written prefix, the
pending old lines and the pending staged lines are each strictly sorted by
key, all written keys precede all pending keys, and pending old and staged
keys never collide, then the loop's full output is strictly sorted by key. -/
theorem merge_loop_sorted : ∀ (fuel : Nat) (st : MergeLoopState) (out : List Line),
    st.measure ≤ fuel →
    merge_loop fuel st = some out →
    List.Pairwise key_lt (keysOf st.out) →
    List.Pairwise key_lt (keysOf (pendOldLines st.read_result st.results_reader)) →
    List.Pairwise key_lt
      (keysOf (pendNewLines st.read_cached_post st.cached_posts_reader st.post_files)) →
    (∀ a ∈ keysOf st.out,
      ∀ b ∈ keysOf (pendOldLines st.read_result st.results_reader), key_lt a b) →
    (∀ a ∈ keysOf st.out,
      ∀ b ∈ keysOf (pendNewLines st.read_cached_post st.cached_posts_reader
        st.post_files), key_lt a b) →
    (∀ a ∈ keysOf (pendOldLines st.read_result st.results_reader),
      a ∉ keysOf (pendNewLines st.read_cached_post st.cached_posts_reader
        st.post_files)) →
    List.Pairwise key_lt (keysOf out) := by
  intro fuel
  induction fuel with
  | zero =>
    intro st out hm hrun inv1 inv2 inv3 inv4 inv5 inv6
    have hz : st.cached_posts_reader.length = 0 ∧ optCount st.read_cached_post = 0 := by
      simp only [MergeLoopState.measure] at hm
      omega
    have hcp : st.cached_posts_reader = [] := List.length_eq_zero.mp hz.1
    have hbuf : st.read_cached_post = none := optCount_eq_zero hz.2
    simp only [merge_loop, hcp, hbuf, Option.some.injEq] at hrun
    subst hrun
    simpa using inv1
  | succ n ih =>
    intro st out hm hrun inv1 inv2 inv3 inv4 inv5 inv6
    simp only [merge_loop] at hrun
    cases h1 : next_result_line st.read_result st.results_reader with
    | none =>
      rw [h1] at hrun
      simp only [Option.some.injEq] at hrun
      subst hrun
      have hsub : ((match st.read_cached_post with
          | some l => [l] | none => []) ++ st.cached_posts_reader).Sublist
          (pendNewLines st.read_cached_post st.cached_posts_reader st.post_files) := by
        unfold pendNewLines
        exact List.sublist_append_left _ _
      rw [List.append_assoc, keysOf_append, List.pairwise_append]
      refine ⟨inv1, ?_, ?_⟩
      · exact List.Pairwise.sublist (hsub.map lineKey) inv3
      · intro a ha b hb
        exact inv5 a ha b ((hsub.map lineKey).subset hb)
    | some pr =>
      obtain ⟨rrl0, results1⟩ := pr
      rw [h1] at hrun
      dsimp only at hrun
      obtain ⟨hpo, hcnt1, _⟩ := next_result_line_some h1
      cases h2 : (if rrl0.updated = true then some (st.patch, rrl0)
          else update_post_line_with_put_delete st.patch rrl0) with
      | none => rw [h2] at hrun; simp at hrun
      | some pr2 =>
        obtain ⟨ps1, rrl1⟩ := pr2
        rw [h2] at hrun
        dsimp only at hrun
        have hkey1 : lineKey rrl1.line = lineKey rrl0.line := step_patch_key h2
        cases h3 : next_cached_post_line st.read_cached_post st.cached_posts_reader
            st.post_files with
        | none =>
          rw [h3] at hrun
          dsimp only at hrun
          cases h4 : drain_results ps1 results1 with
          | none => rw [h4] at hrun; simp at hrun
          | some rest =>
            rw [h4] at hrun
            dsimp only at hrun
            simp only [Option.some.injEq] at hrun
            subst hrun
            have hrest : (keysOf rest).Sublist (keysOf results1) :=
              drain_results_key_sublist results1 ps1 rest h4
            rw [hpo] at inv2 inv4
            simp only [keysOf_cons, List.pairwise_cons] at inv2
            simp only [keysOf_cons] at inv4
            obtain ⟨h_old_head, h_old_tail⟩ := inv2
            have h_out_old0 : ∀ a ∈ keysOf st.out, key_lt a (lineKey rrl0.line) :=
              fun a ha => inv4 a ha _ (List.mem_cons_self _ _)
            have h_out_oldT : ∀ a ∈ keysOf st.out, ∀ b ∈ keysOf results1, key_lt a b :=
              fun a ha b hb => inv4 a ha b (List.mem_cons_of_mem _ hb)
            have hout1 : List.Pairwise key_lt (keysOf (st.out ++
                (if rrl1.mark_for_deletion = true then [] else [rrl1.line]))) := by
              rw [keysOf_append, List.pairwise_append]
              refine ⟨inv1, ?_, ?_⟩
              · by_cases hmk : rrl1.mark_for_deletion = true
                · simp [hmk, keysOf]
                · simp [hmk, keysOf]
              · intro a ha b hb
                by_cases hmk : rrl1.mark_for_deletion = true
                · rw [if_pos hmk] at hb
                  simp [keysOf] at hb
                · rw [if_neg hmk] at hb
                  simp only [keysOf, List.map_cons, List.map_nil,
                    List.mem_singleton] at hb
                  subst hb
                  rw [hkey1]
                  exact h_out_old0 a ha
            have hmemout1 : ∀ a ∈ keysOf (st.out ++
                (if rrl1.mark_for_deletion = true then [] else [rrl1.line])),
                a ∈ keysOf st.out ∨ a = lineKey rrl0.line := by
              intro a ha
              rw [keysOf_append, List.mem_append] at ha
              rcases ha with h | h
              · exact Or.inl h
              · right
                by_cases hmk : rrl1.mark_for_deletion = true
                · rw [if_pos hmk] at h; simp [keysOf] at h
                · rw [if_neg hmk] at h
                  simp only [keysOf, List.map_cons, List.map_nil,
                    List.mem_singleton] at h
                  rw [h, hkey1]
            rw [keysOf_append, List.pairwise_append]
            refine ⟨hout1, List.Pairwise.sublist hrest h_old_tail, ?_⟩
            intro a ha b hb
            rcases hmemout1 a ha with h | h
            · exact h_out_oldT a h b (hrest.subset hb)
            · rw [h]
              exact h_old_head b (hrest.subset hb)
        | some tr =>
          obtain ⟨cached, ntail⟩ := tr
          obtain ⟨reader1, files1⟩ := ntail
          rw [h3] at hrun
          dsimp only at hrun
          obtain ⟨hpn, hcnt2⟩ := next_cached_post_line_some h3
          rw [hpo] at inv2 inv4 inv6
          rw [hpn] at inv3 inv5 inv6
          simp only [keysOf_cons, List.pairwise_cons] at inv2 inv3
          simp only [keysOf_cons] at inv4 inv5 inv6
          obtain ⟨h_old_head, h_old_tail⟩ := inv2
          obtain ⟨h_new_head, h_new_tail⟩ := inv3
          have h_out_old0 : ∀ a ∈ keysOf st.out, key_lt a (lineKey rrl0.line) :=
            fun a ha => inv4 a ha _ (List.mem_cons_self _ _)
          have h_out_oldT : ∀ a ∈ keysOf st.out, ∀ b ∈ keysOf results1, key_lt a b :=
            fun a ha b hb => inv4 a ha b (List.mem_cons_of_mem _ hb)
          have h_out_new0 : ∀ a ∈ keysOf st.out, key_lt a (lineKey cached) :=
            fun a ha => inv5 a ha _ (List.mem_cons_self _ _)
          have h_out_newT : ∀ a ∈ keysOf st.out,
              ∀ b ∈ keysOf (reader1 ++ files1.flatten), key_lt a b :=
            fun a ha b hb => inv5 a ha b (List.mem_cons_of_mem _ hb)
          have h_ne0 : lineKey rrl0.line ≠ lineKey cached := by
            intro he
            exact inv6 _ (List.mem_cons_self _ _)
              (by rw [he]; exact List.mem_cons_self _ _)
          have hmm : st.results_reader.length + optCount st.read_result +
              st.cached_posts_reader.length + sumLens st.post_files +
              optCount st.read_cached_post ≤ n + 1 := by
            have := hm
            simp only [MergeLoopState.measure] at this
            exact this
          have hout1 : List.Pairwise key_lt (keysOf (st.out ++
              (if rrl1.mark_for_deletion = true then [] else [rrl1.line]))) := by
            rw [keysOf_append, List.pairwise_append]
            refine ⟨inv1, ?_, ?_⟩
            · by_cases hmk : rrl1.mark_for_deletion = true
              · simp [hmk, keysOf]
              · simp [hmk, keysOf]
            · intro a ha b hb
              by_cases hmk : rrl1.mark_for_deletion = true
              · rw [if_pos hmk] at hb
                simp [keysOf] at hb
              · rw [if_neg hmk] at hb
                simp only [keysOf, List.map_cons, List.map_nil,
                  List.mem_singleton] at hb
                subst hb
                rw [hkey1]
                exact h_out_old0 a ha
          have hmemout1 : ∀ a ∈ keysOf (st.out ++
              (if rrl1.mark_for_deletion = true then [] else [rrl1.line])),
              a ∈ keysOf st.out ∨ a = lineKey rrl0.line := by
            intro a ha
            rw [keysOf_append, List.mem_append] at ha
            rcases ha with h | h
            · exact Or.inl h
            · right
              by_cases hmk : rrl1.mark_for_deletion = true
              · rw [if_pos hmk] at h; simp [keysOf] at h
              · rw [if_neg hmk] at h
                simp only [keysOf, List.map_cons, List.map_nil,
                  List.mem_singleton] at h
                rw [h, hkey1]
          by_cases hcmp : ltLine (lineKey rrl1.line) (lineKey cached) = true
          · rw [if_pos hcmp] at hrun
            have hkc : key_lt (lineKey rrl0.line) (lineKey cached) := by
              unfold key_lt
              rw [← hkey1]
              exact hcmp
            refine ih _ out ?_ hrun ?_ ?_ ?_ ?_ ?_ ?_
            · simp only [MergeLoopState.measure, optCount]
              omega
            · exact hout1
            · simpa [pendOldLines] using h_old_tail
            · simp only [pendNewLines]
              have he : [cached] ++ reader1 ++ files1.flatten =
                  cached :: (reader1 ++ files1.flatten) := by simp
              rw [he, keysOf_cons, List.pairwise_cons]
              exact ⟨h_new_head, h_new_tail⟩
            · intro a ha b hb
              simp only [pendOldLines, List.nil_append] at hb
              rcases hmemout1 a ha with h | h
              · exact h_out_oldT a h b hb
              · rw [h]
                exact h_old_head b hb
            · intro a ha b hb
              simp only [pendNewLines] at hb
              have he : [cached] ++ reader1 ++ files1.flatten =
                  cached :: (reader1 ++ files1.flatten) := by simp
              rw [he, keysOf_cons, List.mem_cons] at hb
              rcases hmemout1 a ha with h | h
              · rcases hb with hb | hb
                · rw [hb]
                  exact h_out_new0 a h
                · exact h_out_newT a h b hb
              · rcases hb with hb | hb
                · rw [h, hb]
                  exact hkc
                · rw [h]
                  exact key_lt_trans hkc (h_new_head b hb)
            · intro a ha
              simp only [pendOldLines, List.nil_append] at ha
              intro hb
              simp only [pendNewLines] at hb
              have he : [cached] ++ reader1 ++ files1.flatten =
                  cached :: (reader1 ++ files1.flatten) := by simp
              rw [he, keysOf_cons] at hb
              exact inv6 a (List.mem_cons_of_mem _ ha) hb
          · rw [if_neg hcmp] at hrun
            have hnlt : ¬ key_lt (lineKey rrl0.line) (lineKey cached) := by
              unfold key_lt
              rw [← hkey1]
              exact fun hh => hcmp hh
            have hlt : key_lt (lineKey cached) (lineKey rrl0.line) :=
              key_lt_of_not_of_ne hnlt h_ne0
            have hmemout2 : ∀ a ∈ keysOf (st.out ++ [cached]),
                a ∈ keysOf st.out ∨ a = lineKey cached := by
              intro a ha
              rw [keysOf_append, List.mem_append] at ha
              rcases ha with h | h
              · exact Or.inl h
              · right
                simpa [keysOf] using h
            have hmempo : ∀ b ∈ keysOf (pendOldLines
                (if rrl1.mark_for_deletion = true then none else some rrl1) results1),
                b = lineKey rrl0.line ∨ b ∈ keysOf results1 := by
              intro b hb
              by_cases hmk : rrl1.mark_for_deletion = true
              · rw [if_pos hmk] at hb
                simp only [pendOldLines, List.nil_append] at hb
                exact Or.inr hb
              · rw [if_neg hmk] at hb
                simp only [pendOldLines, List.singleton_append, keysOf_cons,
                  List.mem_cons] at hb
                rcases hb with h | h
                · left; rw [h, hkey1]
                · exact Or.inr h
            refine ih _ out ?_ hrun ?_ ?_ ?_ ?_ ?_ ?_
            · have hoc : optCount (if rrl1.mark_for_deletion = true then
                  (none : Option ReadResultLine) else some rrl1) ≤ 1 := by
                by_cases hmk : rrl1.mark_for_deletion = true
                · simp [hmk, optCount]
                · simp [hmk, optCount]
              simp only [MergeLoopState.measure, optCount]
              simp only [optCount] at hoc
              omega
            · rw [keysOf_append, List.pairwise_append]
              refine ⟨inv1, by simp [keysOf], ?_⟩
              intro a ha b hb
              simp only [keysOf, List.map_cons, List.map_nil,
                List.mem_singleton] at hb
              subst hb
              exact h_out_new0 a ha
            · by_cases hmk : rrl1.mark_for_deletion = true
              · rw [if_pos hmk]
                simpa [pendOldLines] using h_old_tail
              · rw [if_neg hmk]
                simp only [pendOldLines, List.singleton_append, keysOf_cons,
                  List.pairwise_cons]
                refine ⟨?_, h_old_tail⟩
                intro b hb
                rw [hkey1]
                exact h_old_head b hb
            · simp only [pendNewLines, List.nil_append]
              exact h_new_tail
            · intro a ha b hb
              rcases hmempo b hb with h | h
              · subst h
                rcases hmemout2 a ha with h2 | h2
                · exact h_out_old0 a h2
                · rw [h2]
                  exact hlt
              · rcases hmemout2 a ha with h2 | h2
                · exact h_out_oldT a h2 b h
                · rw [h2]
                  exact key_lt_trans hlt (h_old_head b h)
            · intro a ha b hb
              simp only [pendNewLines, List.nil_append] at hb
              rcases hmemout2 a ha with h2 | h2
              · exact h_out_newT a h2 b hb
              · rw [h2]
                exact h_new_head b hb
            · intro a ha
              simp only [pendNewLines, List.nil_append]
              intro hb
              rcases hmempo a ha with h | h
              · exact inv6 a (by rw [h]; exact List.mem_cons_self _ _)
                  (List.mem_cons_of_mem _ hb)
              · exact inv6 a (List.mem_cons_of_mem _ h) (List.mem_cons_of_mem _ hb)

/-- Line-level sort invariant of `State::merge`: with the old dataset lines
strictly sorted by uuid, the staged record files' concatenation strictly
sorted by uuid, and no uuid shared between the two streams, every line list
the merge writes to the scratch file is strictly sorted by uuid — whatever
the queued mutations are, since a put rewrite keeps the matched line's uuid
and a delete only removes a line. -/
theorem merge_lines_sorted (results_lines : List Line) (post_files : List (List Line))
    (puts_deletes_files : List (List PutDeleteUpdate)) (out : List Line)
    (hrun : merge_lines results_lines post_files puts_deletes_files = some out)
    (hold : List.Pairwise key_lt (keysOf results_lines))
    (hnew : List.Pairwise key_lt (keysOf post_files.flatten))
    (hdisj : ∀ a ∈ keysOf results_lines, a ∉ keysOf post_files.flatten) :
    List.Pairwise key_lt (keysOf out) := by
  unfold merge_lines at hrun
  cases post_files with
  | nil =>
    exact List.Pairwise.sublist
      (drain_results_key_sublist results_lines _ out hrun) hold
  | cons f rest =>
    refine merge_loop_sorted _ _ out (le_refl _) hrun ?_ ?_ ?_ ?_ ?_ ?_
    · simp [keysOf]
    · simpa [pendOldLines] using hold
    · simp only [pendNewLines, List.nil_append]
      simpa [List.flatten_cons] using hnew
    · intro a ha
      simp [keysOf] at ha
    · intro a ha
      simp [keysOf] at ha
    · intro a ha
      simp only [pendOldLines, List.nil_append] at ha
      simp only [pendNewLines, List.nil_append]
      have := hdisj a ha
      simpa [List.flatten_cons] using this

/-! Newline discipline: the merge output contains no embedded newline when
its inputs and the put payloads do not. -/

theorem mem_splitFields_subset : ∀ (l : Line) (f : Line),
    f ∈ splitFields l → ∀ c ∈ f, c ∈ l := by
  intro l
  induction l with
  | nil =>
    intro f hf c hc
    simp [splitFields] at hf
    subst hf
    simp at hc
  | cons x xs ih =>
    intro f hf c hc
    by_cases hx : x = ','
    · simp only [splitFields, if_pos hx] at hf
      rcases List.mem_cons.mp hf with h | h
      · subst h; simp at hc
      · exact List.mem_cons_of_mem x (ih f h c hc)
    · simp only [splitFields, if_neg hx] at hf
      cases h : splitFields xs with
      | nil => exact absurd h (splitFields_ne_nil xs)
      | cons g gs =>
        rw [h] at hf
        rcases List.mem_cons.mp hf with h1 | h1
        · subst h1
          rcases List.mem_cons.mp hc with h2 | h2
          · subst h2; exact List.mem_cons_self c xs
          · exact List.mem_cons_of_mem x
              (ih g (by rw [h]; exact List.mem_cons_self g gs) c h2)
        · exact List.mem_cons_of_mem x
            (ih f (by rw [h]; exact List.mem_cons_of_mem g h1) c hc)

theorem lineKey_subset (l : Line) : ∀ c ∈ lineKey l, c ∈ l := by
  intro c hc
  unfold lineKey at hc
  cases h : splitFields l with
  | nil => exact absurd h (splitFields_ne_nil l)
  | cons f fs =>
    rw [h] at hc
    simp only [List.headD_cons] at hc
    exact mem_splitFields_subset l f (by rw [h]; exact List.mem_cons_self f fs) c hc

theorem getLastD_mem_of_ne_nil : ∀ (xs : List Line) (d : Line), xs ≠ [] →
    xs.getLastD d ∈ xs := by
  intro xs
  induction xs with
  | nil => intro d h; exact absurd rfl h
  | cons x t ih =>
    intro d _
    cases t with
    | nil => simp [List.getLastD]
    | cons y t2 =>
      have := ih d (by simp)
      exact List.mem_cons_of_mem x this

theorem lastField_subset (l : Line) : ∀ c ∈ lastField l, c ∈ l := by
  intro c hc
  unfold lastField at hc
  exact mem_splitFields_subset l _
    (getLastD_mem_of_ne_nil (splitFields l) [] (splitFields_ne_nil l)) c hc

theorem joinComma5_no_newline {u a b c d : Line}
    (hu : '\n' ∉ u) (ha : '\n' ∉ a) (hb : '\n' ∉ b) (hc : '\n' ∉ c)
    (hd : '\n' ∉ d) : '\n' ∉ joinComma [u, a, b, c, d] := by
  have he : joinComma [u, a, b, c, d] =
      u ++ ',' :: (a ++ ',' :: (b ++ ',' :: (c ++ ',' :: d))) := by
    simp [joinComma]
  rw [he]
  intro hm
  simp only [List.mem_append, List.mem_cons] at hm
  rcases hm with h | h | h | h | h | h | h | h | h
  · exact hu h
  · exact absurd h (by decide)
  · exact ha h
  · exact absurd h (by decide)
  · exact hb h
  · exact absurd h (by decide)
  · exact hc h
  · exact absurd h (by decide)
  · exact hd h

/-- Put payloads whose rendered fields contain no newline character. -/
def newline_free_mutations (ms : List PutDeleteUpdate) : Prop :=
  ∀ m ∈ ms, ∀ p ∈ m.put,
    '\n' ∉ p.author ∧ '\n' ∉ p.message ∧ '\n' ∉ intChars p.likes ∧
    ∀ s ∈ p.image, '\n' ∉ s

instance (ms : List PutDeleteUpdate) : Decidable (newline_free_mutations ms) := by
  unfold newline_free_mutations; infer_instance

theorem load_pendingMutations (ps : PatchState) :
    pendingMutations (load_more_puts_deletes ps) = pendingMutations ps := by
  unfold load_more_puts_deletes
  by_cases hq : ps.puts_deletes.isEmpty
  · rw [if_pos hq]
    have hqe : ps.puts_deletes = [] := List.isEmpty_iff.mp hq
    cases hf : ps.puts_deletes_files with
    | nil => simp [pendingMutations, hqe, hf]
    | cons f rest => simp [pendingMutations, hqe, hf, List.flatten_cons]
  · rw [if_neg hq]

theorem load_should (ps : PatchState)
    (hs : ps.should_update_results = true) (hne : pendingMutations ps ≠ []) :
    (load_more_puts_deletes ps).should_update_results = true := by
  unfold load_more_puts_deletes
  by_cases hq : ps.puts_deletes.isEmpty
  · rw [if_pos hq]
    have hqe : ps.puts_deletes = [] := List.isEmpty_iff.mp hq
    cases hf : ps.puts_deletes_files with
    | nil =>
      exact absurd (by simp [pendingMutations, hqe, hf]) hne
    | cons f rest => exact hs
  · rw [if_neg hq]
    exact hs

theorem apply_front_pend_mem {ps : PatchState} {rl : ReadResultLine}
    {ps1 : PatchState} {rl1 : ReadResultLine}
    (h : apply_front_mutation ps rl = some (ps1, rl1)) :
    ∀ x ∈ pendingMutations ps1, x ∈ pendingMutations ps := by
  unfold apply_front_mutation at h
  cases hq : ps.puts_deletes with
  | nil =>
    rw [hq] at h
    simp only [Option.some.injEq, Prod.mk.injEq] at h
    rw [← h.1]
    exact fun x hx => hx
  | cons update rest =>
    rw [hq] at h
    dsimp only at h
    by_cases hne : update.uuid ≠ lineKey rl.line
    · rw [if_pos hne] at h
      simp only [Option.some.injEq, Prod.mk.injEq] at h
      rw [← h.1]
      exact fun x hx => hx
    · rw [if_neg hne] at h
      by_cases hdel : update.delete = true
      · rw [if_pos hdel] at h
        simp only [Option.some.injEq, Prod.mk.injEq] at h
        rw [← h.1]
        intro x hx
        simp only [pendingMutations, hq] at hx ⊢
        simp only [List.cons_append, List.mem_cons]
        right
        exact hx
      · rw [if_neg hdel] at h
        cases hput : update.put with
        | none => rw [hput] at h; simp at h
        | some put =>
          rw [hput] at h
          simp only [Option.some.injEq, Prod.mk.injEq] at h
          rw [← h.1]
          intro x hx
          simp only [pendingMutations, hq] at hx ⊢
          simp only [List.cons_append, List.mem_cons]
          right
          exact hx

theorem update_pend_mem {ps : PatchState} {rl : ReadResultLine}
    {ps1 : PatchState} {rl1 : ReadResultLine}
    (h : update_post_line_with_put_delete ps rl = some (ps1, rl1)) :
    ∀ x ∈ pendingMutations ps1, x ∈ pendingMutations ps := by
  unfold update_post_line_with_put_delete at h
  by_cases hs : ps.should_update_results
  · rw [if_pos hs] at h
    intro x hx
    rw [← load_pendingMutations ps]
    exact apply_front_pend_mem h x hx
  · rw [if_neg hs] at h
    simp only [Option.some.injEq, Prod.mk.injEq] at h
    rw [← h.1]
    exact fun x hx => hx

theorem apply_front_newline_free {ps : PatchState} {rl : ReadResultLine}
    {ps1 : PatchState} {rl1 : ReadResultLine}
    (h : apply_front_mutation ps rl = some (ps1, rl1))
    (hl : '\n' ∉ rl.line)
    (hmut : newline_free_mutations (pendingMutations ps)) : '\n' ∉ rl1.line := by
  unfold apply_front_mutation at h
  cases hq : ps.puts_deletes with
  | nil =>
    rw [hq] at h
    simp only [Option.some.injEq, Prod.mk.injEq] at h
    rw [← h.2]
    exact hl
  | cons update rest =>
    rw [hq] at h
    dsimp only at h
    by_cases hne : update.uuid ≠ lineKey rl.line
    · rw [if_pos hne] at h
      simp only [Option.some.injEq, Prod.mk.injEq] at h
      rw [← h.2]
      exact hl
    · rw [if_neg hne] at h
      push_neg at hne
      by_cases hdel : update.delete = true
      · rw [if_pos hdel] at h
        simp only [Option.some.injEq, Prod.mk.injEq] at h
        rw [← h.2]
        exact hl
      · rw [if_neg hdel] at h
        cases hput : update.put with
        | none => rw [hput] at h; simp at h
        | some put =>
          rw [hput] at h
          simp only [Option.some.injEq, Prod.mk.injEq] at h
          rw [← h.2]
          have hmem : update ∈ pendingMutations ps := by
            simp [pendingMutations, hq]
          obtain ⟨hna, hnm, hnl, hni⟩ := hmut update hmem put hput
          have hnu : '\n' ∉ update.uuid := by
            rw [hne]
            intro hmm
            exact hl (lineKey_subset rl.line '\n' hmm)
          have hnimg : '\n' ∉ (match put.image with
              | some img => img
              | none => lastField rl.line) := by
            cases hi : put.image with
            | some i => exact hni i hi
            | none =>
              intro hmm
              exact hl (lastField_subset rl.line '\n' hmm)
          exact joinComma5_no_newline hnu hna hnm hnl hnimg

theorem update_newline_free {ps : PatchState} {rl : ReadResultLine}
    {ps1 : PatchState} {rl1 : ReadResultLine}
    (h : update_post_line_with_put_delete ps rl = some (ps1, rl1))
    (hl : '\n' ∉ rl.line)
    (hmut : newline_free_mutations (pendingMutations ps)) : '\n' ∉ rl1.line := by
  unfold update_post_line_with_put_delete at h
  by_cases hs : ps.should_update_results
  · rw [if_pos hs] at h
    refine apply_front_newline_free h hl ?_
    rw [load_pendingMutations ps]
    exact hmut
  · rw [if_neg hs] at h
    simp only [Option.some.injEq, Prod.mk.injEq] at h
    rw [← h.2]
    exact hl

theorem step_patch_newline_free {p : PatchState} {r0 : ReadResultLine}
    {p1 : PatchState} {r1 : ReadResultLine}
    (h : (if r0.updated = true then some (p, r0)
          else update_post_line_with_put_delete p r0) = some (p1, r1))
    (hl : '\n' ∉ r0.line)
    (hmut : newline_free_mutations (pendingMutations p)) : '\n' ∉ r1.line := by
  by_cases hu : r0.updated = true
  · rw [if_pos hu] at h
    simp only [Option.some.injEq, Prod.mk.injEq] at h
    rw [← h.2]
    exact hl
  · rw [if_neg hu] at h
    exact update_newline_free h hl hmut

theorem step_patch_pend_mem {p : PatchState} {r0 : ReadResultLine}
    {p1 : PatchState} {r1 : ReadResultLine}
    (h : (if r0.updated = true then some (p, r0)
          else update_post_line_with_put_delete p r0) = some (p1, r1)) :
    ∀ x ∈ pendingMutations p1, x ∈ pendingMutations p := by
  by_cases hu : r0.updated = true
  · rw [if_pos hu] at h
    simp only [Option.some.injEq, Prod.mk.injEq] at h
    rw [← h.1]
    exact fun x hx => hx
  · rw [if_neg hu] at h
    exact update_pend_mem h

theorem drain_results_newline_free : ∀ (ls : List Line) (ps : PatchState)
    (r : List Line), drain_results ps ls = some r →
    (∀ l ∈ ls, '\n' ∉ l) →
    newline_free_mutations (pendingMutations ps) →
    ∀ l ∈ r, '\n' ∉ l := by
  intro ls
  induction ls with
  | nil =>
    intro ps r h _ _ l hl
    simp only [drain_results, Option.some.injEq] at h
    subst h
    simp at hl
  | cons x ls1 ih =>
    intro ps r h hin hmut l hl
    simp only [drain_results] at h
    cases hup : update_post_line_with_put_delete ps (ReadResultLine.new x) with
    | none => rw [hup] at h; simp at h
    | some pr =>
      rw [hup] at h
      obtain ⟨ps1, rl⟩ := pr
      dsimp only at h
      cases hd : drain_results ps1 ls1 with
      | none => rw [hd] at h; simp at h
      | some rest =>
        rw [hd] at h
        dsimp only at h
        simp only [Option.some.injEq] at h
        subst h
        have hmut1 : newline_free_mutations (pendingMutations ps1) :=
          fun m hm => hmut m (update_pend_mem hup m hm)
        have hin1 : ∀ l2 ∈ ls1, '\n' ∉ l2 :=
          fun l2 h2 => hin l2 (List.mem_cons_of_mem x h2)
        have hrl : '\n' ∉ rl.line :=
          update_newline_free hup (hin x (List.mem_cons_self x ls1)) hmut
        by_cases hmk : rl.mark_for_deletion = true
        · rw [if_pos hmk] at hl
          exact ih ps1 rest hd hin1 hmut1 l hl
        · rw [if_neg hmk] at hl
          rcases List.mem_cons.mp hl with h1 | h1
          · subst h1; exact hrl
          · exact ih ps1 rest hd hin1 hmut1 l h1

/-- Every line the merge loop writes is newline-free, given newline-free
pending lines and newline-free put payloads. -/
theorem merge_loop_newline_free : ∀ (fuel : Nat) (st : MergeLoopState)
    (out : List Line),
    st.measure ≤ fuel →
    merge_loop fuel st = some out →
    (∀ l ∈ st.out, '\n' ∉ l) →
    (∀ l ∈ pendOldLines st.read_result st.results_reader, '\n' ∉ l) →
    (∀ l ∈ pendNewLines st.read_cached_post st.cached_posts_reader st.post_files,
      '\n' ∉ l) →
    newline_free_mutations (pendingMutations st.patch) →
    ∀ l ∈ out, '\n' ∉ l := by
  intro fuel
  induction fuel with
  | zero =>
    intro st out hm hrun hout hold hnew hmut
    have hz : st.cached_posts_reader.length = 0 ∧ optCount st.read_cached_post = 0 := by
      simp only [MergeLoopState.measure] at hm
      omega
    have hcp : st.cached_posts_reader = [] := List.length_eq_zero.mp hz.1
    have hbuf : st.read_cached_post = none := optCount_eq_zero hz.2
    simp only [merge_loop, hcp, hbuf, Option.some.injEq] at hrun
    subst hrun
    intro l hl
    simp at hl
    exact hout l hl
  | succ n ih =>
    intro st out hm hrun hout hold hnew hmut
    simp only [merge_loop] at hrun
    cases h1 : next_result_line st.read_result st.results_reader with
    | none =>
      rw [h1] at hrun
      simp only [Option.some.injEq] at hrun
      subst hrun
      have hsub : ((match st.read_cached_post with
          | some l => [l] | none => []) ++ st.cached_posts_reader).Sublist
          (pendNewLines st.read_cached_post st.cached_posts_reader st.post_files) := by
        unfold pendNewLines
        exact List.sublist_append_left _ _
      intro l hl
      rw [List.append_assoc, List.mem_append] at hl
      rcases hl with h | h
      · exact hout l h
      · exact hnew l (hsub.subset h)
    | some pr =>
      obtain ⟨rrl0, results1⟩ := pr
      rw [h1] at hrun
      dsimp only at hrun
      obtain ⟨hpo, hcnt1, _⟩ := next_result_line_some h1
      have hold2 : ∀ l ∈ rrl0.line :: results1, '\n' ∉ l := by
        rw [← hpo]
        exact hold
      have hr0 : '\n' ∉ rrl0.line := hold2 _ (List.mem_cons_self _ _)
      have holdT : ∀ l ∈ results1, '\n' ∉ l :=
        fun l h => hold2 l (List.mem_cons_of_mem _ h)
      cases h2 : (if rrl0.updated = true then some (st.patch, rrl0)
          else update_post_line_with_put_delete st.patch rrl0) with
      | none => rw [h2] at hrun; simp at hrun
      | some pr2 =>
        obtain ⟨ps1, rrl1⟩ := pr2
        rw [h2] at hrun
        dsimp only at hrun
        have hr1 : '\n' ∉ rrl1.line := step_patch_newline_free h2 hr0 hmut
        have hmut1 : newline_free_mutations (pendingMutations ps1) :=
          fun m hm => hmut m (step_patch_pend_mem h2 m hm)
        cases h3 : next_cached_post_line st.read_cached_post st.cached_posts_reader
            st.post_files with
        | none =>
          rw [h3] at hrun
          dsimp only at hrun
          cases h4 : drain_results ps1 results1 with
          | none => rw [h4] at hrun; simp at hrun
          | some rest =>
            rw [h4] at hrun
            dsimp only at hrun
            simp only [Option.some.injEq] at hrun
            subst hrun
            intro l hl
            rw [List.mem_append, List.mem_append] at hl
            rcases hl with (h | h) | h
            · exact hout l h
            · by_cases hmk : rrl1.mark_for_deletion = true
              · rw [if_pos hmk] at h; simp at h
              · rw [if_neg hmk] at h
                rw [List.mem_singleton] at h
                subst h
                exact hr1
            · exact drain_results_newline_free results1 ps1 rest h4 holdT hmut1 l h
        | some tr =>
          obtain ⟨cached, ntail⟩ := tr
          obtain ⟨reader1, files1⟩ := ntail
          rw [h3] at hrun
          dsimp only at hrun
          obtain ⟨hpn, hcnt2⟩ := next_cached_post_line_some h3
          have hnew2 : ∀ l ∈ cached :: (reader1 ++ files1.flatten), '\n' ∉ l := by
            rw [← hpn]
            exact hnew
          have hcached : '\n' ∉ cached := hnew2 _ (List.mem_cons_self _ _)
          have hnewT : ∀ l ∈ reader1 ++ files1.flatten, '\n' ∉ l :=
            fun l h => hnew2 l (List.mem_cons_of_mem _ h)
          have hmm : st.results_reader.length + optCount st.read_result +
              st.cached_posts_reader.length + sumLens st.post_files +
              optCount st.read_cached_post ≤ n + 1 := by
            have := hm
            simp only [MergeLoopState.measure] at this
            exact this
          by_cases hcmp : ltLine (lineKey rrl1.line) (lineKey cached) = true
          · rw [if_pos hcmp] at hrun
            refine ih _ out ?_ hrun ?_ ?_ ?_ ?_
            · simp only [MergeLoopState.measure, optCount]
              omega
            · intro l hl
              rw [List.mem_append] at hl
              rcases hl with h | h
              · exact hout l h
              · by_cases hmk : rrl1.mark_for_deletion = true
                · rw [if_pos hmk] at h; simp at h
                · rw [if_neg hmk] at h
                  rw [List.mem_singleton] at h
                  subst h
                  exact hr1
            · intro l hl
              simp only [pendOldLines, List.nil_append] at hl
              exact holdT l hl
            · intro l hl
              simp only [pendNewLines] at hl
              have he : [cached] ++ reader1 ++ files1.flatten =
                  cached :: (reader1 ++ files1.flatten) := by simp
              rw [he] at hl
              exact hnew2 l hl
            · exact hmut1
          · rw [if_neg hcmp] at hrun
            refine ih _ out ?_ hrun ?_ ?_ ?_ ?_
            · have hoc : optCount (if rrl1.mark_for_deletion = true then
                  (none : Option ReadResultLine) else some rrl1) ≤ 1 := by
                by_cases hmk : rrl1.mark_for_deletion = true
                · simp [hmk, optCount]
                · simp [hmk, optCount]
              simp only [MergeLoopState.measure, optCount]
              simp only [optCount] at hoc
              omega
            · intro l hl
              rw [List.mem_append] at hl
              rcases hl with h | h
              · exact hout l h
              · rw [List.mem_singleton] at h
                subst h
                exact hcached
            · intro l hl
              by_cases hmk : rrl1.mark_for_deletion = true
              · rw [if_pos hmk] at hl
                simp only [pendOldLines, List.nil_append] at hl
                exact holdT l hl
              · rw [if_neg hmk] at hl
                simp only [pendOldLines, List.singleton_append] at hl
                rcases List.mem_cons.mp hl with h | h
                · subst h; exact hr1
                · exact holdT l h
            · intro l hl
              simp only [pendNewLines, List.nil_append] at hl
              exact hnewT l hl
            · exact hmut1

theorem merge_lines_newline_free (results_lines : List Line)
    (post_files : List (List Line)) (puts_deletes_files : List (List PutDeleteUpdate))
    (out : List Line)
    (hrun : merge_lines results_lines post_files puts_deletes_files = some out)
    (hold : ∀ l ∈ results_lines, '\n' ∉ l)
    (hnew : ∀ l ∈ post_files.flatten, '\n' ∉ l)
    (hmut : newline_free_mutations puts_deletes_files.flatten) :
    ∀ l ∈ out, '\n' ∉ l := by
  unfold merge_lines at hrun
  have hpend : newline_free_mutations (pendingMutations
      ⟨!puts_deletes_files.isEmpty, [], puts_deletes_files⟩) := by
    simpa [pendingMutations] using hmut
  cases post_files with
  | nil =>
    exact drain_results_newline_free results_lines _ out hrun hold hpend
  | cons f rest =>
    refine merge_loop_newline_free _ _ out (le_refl _) hrun ?_ ?_ ?_ ?_
    · intro l hl; simp at hl
    · intro l hl
      simp only [pendOldLines, List.nil_append] at hl
      exact hold l hl
    · intro l hl
      simp only [pendNewLines, List.nil_append] at hl
      refine hnew l ?_
      rw [List.flatten_cons]
      exact hl
    · exact hpend

/-- C1 (amended): when the merge installs a dataset file, given that the old
dataset file's lines are strictly sorted and duplicate-free by uuid, the
staged record files concatenated in ascending page-number order are strictly
sorted by uuid, mutation uuids are sorted and unique, no uuid occurs in both
the old and the staged record stream, and additionally — as the code's
no-truncate scratch handling and unescaped line rebuilding force — no stale
`merge.csv` scratch file exists and the put payload fields contain no
newline, the installed dataset file's uuids are strictly ascending with no
duplicates. (The mutation-ordering hypothesis is not even needed: a put
rewrite keeps the matched line's uuid and a delete only removes a line.) -/
theorem C1_amended_sort_invariant
    (fs : Fs) (post_files : List (List Line))
    (puts_deletes_files : List (List PutDeleteUpdate)) (oldContent : List Char)
    (out : List Line)
    (hold : fs RESULT_CSV_NAME = some oldContent)
    (hclean : fs MERGE_FILE_NAME = none)
    (hrun : merge_lines (contentToLines oldContent) post_files puts_deletes_files =
      some out)
    (hsorted_old : sortedByKey (contentToLines oldContent))
    (hsorted_new : sortedByKey post_files.flatten)
    (_hmut_sorted : List.Pairwise key_lt
      (puts_deletes_files.flatten.map PutDeleteUpdate.uuid))
    (hdisj : ∀ a ∈ keysOf (contentToLines oldContent), a ∉ keysOf post_files.flatten)
    (hnew_nl : ∀ l ∈ post_files.flatten, '\n' ∉ l)
    (hmut_nl : newline_free_mutations puts_deletes_files.flatten) :
    fsFile (mergeFS post_files puts_deletes_files fs) RESULT_CSV_NAME =
      some (linesToContent out) ∧
    List.Pairwise key_lt (keysOf (contentToLines
      ((fsFile (mergeFS post_files puts_deletes_files fs) RESULT_CSV_NAME).getD []))) ∧
    (keysOf (contentToLines
      ((fsFile (mergeFS post_files puts_deletes_files fs) RESULT_CSV_NAME).getD []))).Nodup := by
  have hnl_old : ∀ l ∈ contentToLines oldContent, '\n' ∉ l :=
    mem_contentToLines_no_newline oldContent
  have hout_nl : ∀ l ∈ out, '\n' ∉ l :=
    merge_lines_newline_free _ _ _ _ hrun hnl_old hnew_nl hmut_nl
  have hsorted : List.Pairwise key_lt (keysOf out) :=
    merge_lines_sorted _ _ _ _ hrun hsorted_old hsorted_new hdisj
  have hrt : contentToLines (linesToContent out) = out :=
    contentToLines_linesToContent out hout_nl
  have hfile : fsFile (mergeFS post_files puts_deletes_files fs) RESULT_CSV_NAME =
      some (linesToContent out) := by
    simp [mergeFS, hold, hrun, fsFile, Fs.update, hclean, overlay]
  refine ⟨hfile, ?_, ?_⟩
  · rw [hfile]
    simp only [Option.getD_some]
    rw [hrt]
    exact hsorted
  · rw [hfile]
    simp only [Option.getD_some]
    rw [hrt]
    exact List.Pairwise.imp (fun h => key_lt_ne h) hsorted

theorem C1_amended_sort_invariant_witness :
    fsFile (mergeFS [["2,b,b,0,".toList]] []
      (Fs.update (fun _ => none) RESULT_CSV_NAME (some "1,a,a,0,\n".toList)))
      RESULT_CSV_NAME =
      some (linesToContent ["1,a,a,0,".toList, "2,b,b,0,".toList]) ∧
    List.Pairwise key_lt (keysOf (contentToLines
      ((fsFile (mergeFS [["2,b,b,0,".toList]] []
        (Fs.update (fun _ => none) RESULT_CSV_NAME (some "1,a,a,0,\n".toList)))
        RESULT_CSV_NAME).getD []))) ∧
    (keysOf (contentToLines
      ((fsFile (mergeFS [["2,b,b,0,".toList]] []
        (Fs.update (fun _ => none) RESULT_CSV_NAME (some "1,a,a,0,\n".toList)))
        RESULT_CSV_NAME).getD []))).Nodup :=
  C1_amended_sort_invariant
    (Fs.update (fun _ => none) RESULT_CSV_NAME (some "1,a,a,0,\n".toList))
    [["2,b,b,0,".toList]] [] "1,a,a,0,\n".toList
    ["1,a,a,0,".toList, "2,b,b,0,".toList]
    (by decide) (by decide) (by decide) (by decide) (by decide) (by decide)
    (by decide) (by decide) (by decide)

/-- C1 counterexample: all of the claim's stated hypotheses hold — the old
dataset `"1,a,a,0,\n"` is strictly sorted, the single staged record file
`"2,b,b,0,"` is sorted, there are no mutations, the streams share no uuid —
and the merge installs a dataset file; but a stale scratch file `merge.csv`
left over from an earlier failed run is longer than the `merge.csv` content
this run writes, its trailing bytes survive (the scratch file is opened
without truncation), and the installed dataset file's uuids are
`1, 2, 0` — not strictly ascending. -/
theorem C1_counterexample :
    sortedByKey (contentToLines "1,a,a,0,\n".toList) ∧
    sortedByKey ([["2,b,b,0,".toList]] : List (List Line)).flatten ∧
    fsFile (mergeFS [["2,b,b,0,".toList]] []
      (Fs.update (Fs.update (fun _ => none) RESULT_CSV_NAME
        (some "1,a,a,0,\n".toList)) MERGE_FILE_NAME
        (some "1,a,a,0,\n2,b,b,0,\n0,z,z,0,\n".toList)))
      RESULT_CSV_NAME = some "1,a,a,0,\n2,b,b,0,\n0,z,z,0,\n".toList ∧
    ¬ List.Pairwise key_lt (keysOf (contentToLines
      ((fsFile (mergeFS [["2,b,b,0,".toList]] []
        (Fs.update (Fs.update (fun _ => none) RESULT_CSV_NAME
          (some "1,a,a,0,\n".toList)) MERGE_FILE_NAME
          (some "1,a,a,0,\n2,b,b,0,\n0,z,z,0,\n".toList)))
        RESULT_CSV_NAME).getD []))) := by
  refine ⟨by decide, by decide, by decide, by decide⟩

/-! Infrastructure for the delete-semantics analysis (claim C6). -/

/-- Structural invariant of the patch applier state: once
`should_update_results` is cleared no mutation is pending, and every staged
mutation file still to load is non-empty (the worker only writes a mutation
file when the page's mutation list is non-empty, magic.rs 107-118). -/
def PSInv (ps : PatchState) : Prop :=
  (ps.should_update_results = false → pendingMutations ps = []) ∧
  (∀ f ∈ ps.puts_deletes_files, f ≠ [])

/-- One applier consultation, characterized: either no mutation is pending
and nothing happens; or the front pending mutation mismatches the line's key
and everything is unchanged; or it matches and is consumed, marking the line
updated, preserving its key, and flagging deletion exactly for a delete
mutation. -/
theorem update_step_characterize {ps : PatchState} {rl : ReadResultLine}
    {ps1 : PatchState} {rl1 : ReadResultLine}
    (h : update_post_line_with_put_delete ps rl = some (ps1, rl1))
    (hinv : PSInv ps) :
    PSInv ps1 ∧
    ((pendingMutations ps = [] ∧ pendingMutations ps1 = [] ∧ rl1 = rl) ∨
     (∃ m restM, pendingMutations ps = m :: restM ∧
       ((m.uuid ≠ lineKey rl.line ∧ pendingMutations ps1 = m :: restM ∧ rl1 = rl) ∨
        (m.uuid = lineKey rl.line ∧ pendingMutations ps1 = restM ∧
         rl1.updated = true ∧ lineKey rl1.line = lineKey rl.line ∧
         (m.delete = true → rl1.mark_for_deletion = true) ∧
         (m.delete = false → rl1.mark_for_deletion = rl.mark_for_deletion))))) := by
  unfold update_post_line_with_put_delete at h
  by_cases hs : ps.should_update_results
  · rw [if_pos hs] at h
    have hpend : pendingMutations (load_more_puts_deletes ps) = pendingMutations ps :=
      load_pendingMutations ps
    have hfiles1 : ∀ f ∈ (load_more_puts_deletes ps).puts_deletes_files, f ≠ [] := by
      unfold load_more_puts_deletes
      by_cases hq : ps.puts_deletes.isEmpty
      · rw [if_pos hq]
        cases hf : ps.puts_deletes_files with
        | nil => simp
        | cons f rest =>
          intro g hg
          exact hinv.2 g (by rw [hf]; exact List.mem_cons_of_mem f hg)
      · rw [if_neg hq]
        exact hinv.2
    have hqueue : (load_more_puts_deletes ps).puts_deletes = [] →
        pendingMutations (load_more_puts_deletes ps) = [] := by
      unfold load_more_puts_deletes
      by_cases hq : ps.puts_deletes.isEmpty
      · rw [if_pos hq]
        cases hf : ps.puts_deletes_files with
        | nil =>
          intro _
          have hqe : ps.puts_deletes = [] := List.isEmpty_iff.mp hq
          simp [pendingMutations, hqe, hf]
        | cons f rest =>
          intro hc
          simp only at hc
          have : f ≠ [] := hinv.2 f (by rw [hf]; exact List.mem_cons_self f rest)
          have hqe : ps.puts_deletes = [] := List.isEmpty_iff.mp hq
          rw [hqe] at hc
          simp at hc
          exact absurd hc this
      · rw [if_neg hq]
        intro hc
        exact absurd hc (by simpa using hq)
    have hshould : (load_more_puts_deletes ps).puts_deletes ≠ [] →
        (load_more_puts_deletes ps).should_update_results = true := by
      unfold load_more_puts_deletes
      by_cases hq : ps.puts_deletes.isEmpty
      · rw [if_pos hq]
        cases hf : ps.puts_deletes_files with
        | nil =>
          intro hc
          have hqe : ps.puts_deletes = [] := List.isEmpty_iff.mp hq
          simp only at hc
          exact absurd hqe hc
        | cons f rest => intro _; exact hs
      · rw [if_neg hq]
        intro _
        exact hs
    have hpsplit : pendingMutations (load_more_puts_deletes ps) =
        (load_more_puts_deletes ps).puts_deletes ++
        (load_more_puts_deletes ps).puts_deletes_files.flatten := rfl
    unfold apply_front_mutation at h
    cases hq : (load_more_puts_deletes ps).puts_deletes with
    | nil =>
      rw [hq] at h
      simp only [Option.some.injEq, Prod.mk.injEq] at h
      obtain ⟨hps1, hrl1⟩ := h
      have hpe : pendingMutations ps = [] := by
        rw [← hpend]
        exact hqueue hq
      refine ⟨?_, Or.inl ⟨hpe, ?_, hrl1.symm⟩⟩
      · rw [← hps1]
        exact ⟨fun _ => hqueue hq, hfiles1⟩
      · rw [← hps1]
        exact hqueue hq
    | cons m rest_q =>
      rw [hq] at h
      dsimp only at h
      have hpm : pendingMutations ps = m ::
          (rest_q ++ (load_more_puts_deletes ps).puts_deletes_files.flatten) := by
        rw [← hpend, hpsplit, hq]
        simp
      have hs1 : (load_more_puts_deletes ps).should_update_results = true :=
        hshould (by rw [hq]; simp)
      by_cases hne : m.uuid ≠ lineKey rl.line
      · rw [if_pos hne] at h
        simp only [Option.some.injEq, Prod.mk.injEq] at h
        obtain ⟨hps1, hrl1⟩ := h
        refine ⟨?_, Or.inr ⟨m, _, hpm, Or.inl ⟨hne, ?_, hrl1.symm⟩⟩⟩
        · rw [← hps1]
          refine ⟨?_, hfiles1⟩
          intro hc
          rw [hs1] at hc
          simp at hc
        · rw [← hps1, hpsplit, hq]
          simp
      · rw [if_neg hne] at h
        push_neg at hne
        have hinv1 : ∀ {q : PatchState}, q = { load_more_puts_deletes ps with
            puts_deletes := rest_q } → PSInv q := by
          intro q hqe
          subst hqe
          refine ⟨?_, hfiles1⟩
          intro hc
          simp only at hc
          rw [hs1] at hc
          simp at hc
        have hpm1 : pendingMutations { load_more_puts_deletes ps with
            puts_deletes := rest_q } =
            rest_q ++ (load_more_puts_deletes ps).puts_deletes_files.flatten := by
          simp [pendingMutations]
        by_cases hdel : m.delete = true
        · rw [if_pos hdel] at h
          simp only [Option.some.injEq, Prod.mk.injEq] at h
          obtain ⟨hps1, hrl1⟩ := h
          refine ⟨?_, Or.inr ⟨m, _, hpm, Or.inr ⟨hne, ?_, ?_, ?_, ?_, ?_⟩⟩⟩
          · rw [← hps1]; exact hinv1 rfl
          · rw [← hps1]; exact hpm1
          · rw [← hrl1]
          · rw [← hrl1]
          · intro _; rw [← hrl1]
          · intro hdf; rw [hdf] at hdel; simp at hdel
        · rw [if_neg hdel] at h
          cases hput : m.put with
          | none => rw [hput] at h; simp at h
          | some put =>
            rw [hput] at h
            simp only [Option.some.injEq, Prod.mk.injEq] at h
            obtain ⟨hps1, hrl1⟩ := h
            refine ⟨?_, Or.inr ⟨m, _, hpm, Or.inr ⟨hne, ?_, ?_, ?_, ?_, ?_⟩⟩⟩
            · rw [← hps1]; exact hinv1 rfl
            · rw [← hps1]; exact hpm1
            · rw [← hrl1]
            · rw [← hrl1]
              simp only []
              rw [lineKey_joinComma5]
              · exact hne
              · rw [hne]; exact lineKey_no_comma rl.line
            · intro hdf; rw [hdf] at hdel; exact absurd rfl hdel
            · intro _; rw [← hrl1]
  · rw [if_neg hs] at h
    simp only [Option.some.injEq, Prod.mk.injEq] at h
    obtain ⟨hps1, hrl1⟩ := h
    have hse : ps.should_update_results = false := by
      cases hv : ps.should_update_results
      · rfl
      · exact absurd hv hs
    have hpe : pendingMutations ps = [] := hinv.1 hse
    refine ⟨?_, Or.inl ⟨hpe, ?_, hrl1.symm⟩⟩
    · rw [← hps1]; exact hinv
    · rw [← hps1]; exact hpe

theorem step_characterize {p : PatchState} {r0 : ReadResultLine}
    {p1 : PatchState} {r1 : ReadResultLine}
    (h : (if r0.updated = true then some (p, r0)
          else update_post_line_with_put_delete p r0) = some (p1, r1))
    (hinv : PSInv p) :
    PSInv p1 ∧
    ((r0.updated = true ∧ p1 = p ∧ r1 = r0) ∨
     (r0.updated = false ∧
      ((pendingMutations p = [] ∧ pendingMutations p1 = [] ∧ r1 = r0) ∨
       (∃ m restM, pendingMutations p = m :: restM ∧
         ((m.uuid ≠ lineKey r0.line ∧ pendingMutations p1 = m :: restM ∧ r1 = r0) ∨
          (m.uuid = lineKey r0.line ∧ pendingMutations p1 = restM ∧
           r1.updated = true ∧ lineKey r1.line = lineKey r0.line ∧
           (m.delete = true → r1.mark_for_deletion = true) ∧
           (m.delete = false → r1.mark_for_deletion = r0.mark_for_deletion))))))) := by
  by_cases hu : r0.updated = true
  · rw [if_pos hu] at h
    simp only [Option.some.injEq, Prod.mk.injEq] at h
    exact ⟨h.1 ▸ hinv, Or.inl ⟨hu, h.1.symm, h.2.symm⟩⟩
  · rw [if_neg hu] at h
    obtain ⟨hinv1, hd⟩ := update_step_characterize h hinv
    refine ⟨hinv1, Or.inr ⟨by simpa using hu, ?_⟩⟩
    rcases hd with ⟨h1, h2, h3⟩ | ⟨m, restM, hm, hd⟩
    · exact Or.inl ⟨h1, h2, h3⟩
    · exact Or.inr ⟨m, restM, hm, hd⟩

/-- Delete semantics of the final drain: with the drained lines strictly
sorted, the pending mutations sorted by uuid, every pending mutation
targeting a drained key, and the applier-state discipline in place, if a
delete for `u` is still pending (or no drained line is keyed `u`), the
drained output contains no line keyed `u`; moreover every drained line whose
key is outside `U` — a superset of the pending mutation uuids — is written
unchanged and in order. -/
theorem drain_results_delete : ∀ (ls : List Line) (ps : PatchState)
    (out : List Line) (u : Line) (U : List Line),
    drain_results ps ls = some out →
    List.Pairwise key_lt (keysOf ls) →
    List.Pairwise key_lt ((pendingMutations ps).map PutDeleteUpdate.uuid) →
    (∀ m ∈ pendingMutations ps, m.uuid ∈ keysOf ls) →
    PSInv ps →
    (((∃ m ∈ pendingMutations ps, m.uuid = u ∧ m.delete = true) ∧ u ∈ keysOf ls) ∨
      (∀ l ∈ ls, lineKey l ≠ u)) →
    (∀ m ∈ pendingMutations ps, m.uuid ∈ U) →
    (∀ l ∈ out, lineKey l ≠ u) ∧
    (ls.filter (fun l => decide (lineKey l ∉ U))).Sublist out := by
  intro ls
  induction ls with
  | nil =>
    intro ps out u U h _ _ _ _ _ _
    simp only [drain_results, Option.some.injEq] at h
    subst h
    exact ⟨by simp, by simp⟩
  | cons x ls1 ih =>
    intro ps out u U h hsort hpsort htgt hinv hab hU
    simp only [drain_results] at h
    cases hup : update_post_line_with_put_delete ps (ReadResultLine.new x) with
    | none => rw [hup] at h; simp at h
    | some pr =>
      rw [hup] at h
      obtain ⟨ps1, rl⟩ := pr
      dsimp only at h
      cases hd : drain_results ps1 ls1 with
      | none => rw [hd] at h; simp at h
      | some rest =>
        rw [hd] at h
        dsimp only at h
        simp only [Option.some.injEq] at h
        subst h
        obtain ⟨hinv1, htri⟩ := update_step_characterize hup hinv
        simp only [keysOf_cons, List.pairwise_cons] at hsort
        obtain ⟨hhead, htail⟩ := hsort
        have hkrl : lineKey rl.line = lineKey x := update_key_preserved hup
        have hnewline : (ReadResultLine.new x).line = x := rfl
        rcases htri with ⟨hpe, hpe1, hrl⟩ | ⟨m, restM, hm, hcase⟩
        · -- nothing pending: the line passes through unchanged
          have hBtail : ((∃ m ∈ pendingMutations ps1, m.uuid = u ∧ m.delete = true) ∧
              u ∈ keysOf ls1) ∨ (∀ l ∈ ls1, lineKey l ≠ u) := by
            rcases hab with ⟨⟨md, hmem, _, _⟩, _⟩ | hb
            · rw [hpe] at hmem; simp at hmem
            · exact Or.inr fun l hl => hb l (List.mem_cons_of_mem x hl)
          have hxu : lineKey x ≠ u := by
            rcases hab with ⟨⟨md, hmem, _, _⟩, _⟩ | hb
            · rw [hpe] at hmem; simp at hmem
            · exact hb x (List.mem_cons_self x ls1)
          obtain ⟨ihA, ihB⟩ := ih ps1 rest u U hd htail
            (by rw [hpe1]; simp) (by rw [hpe1]; intro m1 hm1; simp at hm1)
            hinv1 hBtail (by rw [hpe1]; intro m1 hm1; simp at hm1)
          subst hrl
          simp only [ReadResultLine.new, Bool.false_eq_true, if_false]
          constructor
          · intro l hl
            rcases List.mem_cons.mp hl with h1 | h1
            · subst h1; exact hxu
            · exact ihA l h1
          · rw [List.filter_cons]
            by_cases hP : lineKey x ∉ U
            · rw [if_pos (by simpa using hP)]
              exact ihB.cons₂ x
            · rw [if_neg (by simpa using hP)]
              exact ihB.cons x
        · rw [hm] at hpsort htgt hU hab
          have hm_head : ∀ v ∈ restM.map PutDeleteUpdate.uuid, key_lt m.uuid v :=
            (List.pairwise_cons.mp hpsort).1
          have hm_tail : List.Pairwise key_lt (restM.map PutDeleteUpdate.uuid) :=
            (List.pairwise_cons.mp hpsort).2
          have hm_tgt : m.uuid ∈ lineKey x :: keysOf ls1 := by
            have := htgt m (List.mem_cons_self m restM)
            simpa [keysOf_cons] using this
          have hrest_tgt : ∀ m1 ∈ restM, m1.uuid ∈ keysOf ls1 := by
            intro m1 hm1
            have h2 : key_lt m.uuid m1.uuid :=
              hm_head m1.uuid (List.mem_map_of_mem PutDeleteUpdate.uuid hm1)
            have htm1 := htgt m1 (List.mem_cons_of_mem m hm1)
            simp only [keysOf_cons, List.mem_cons] at htm1
            rcases htm1 with he | he
            · exfalso
              rcases List.mem_cons.mp hm_tgt with he2 | he2
              · rw [he2, he] at h2
                exact key_lt_ne h2 rfl
              · have h3 : key_lt (lineKey x) m.uuid := hhead m.uuid he2
                have h4 : key_lt (lineKey x) m1.uuid := key_lt_trans h3 h2
                rw [he] at h4
                exact key_lt_ne h4 rfl
            · exact he
          rcases hcase with ⟨hne, hpe1, hrl⟩ | ⟨heq, hpe1, hupd, hkey, hdel_t, hdel_f⟩
          · -- front mismatch: the mutation is pushed back, the line unchanged
            rw [hnewline] at hne
            have hm_tgt2 : m.uuid ∈ keysOf ls1 := by
              rcases List.mem_cons.mp hm_tgt with he | he
              · exact absurd he hne
              · exact he
            have hxu : lineKey x ≠ u := by
              rcases hab with ⟨⟨md, hmem, hu2, _⟩, _⟩ | hb
              · intro hexu
                rcases List.mem_cons.mp hmem with h1 | h1
                · subst h1; exact hne (by rw [hu2, hexu])
                · have h2 : key_lt m.uuid md.uuid :=
                    hm_head md.uuid (List.mem_map_of_mem PutDeleteUpdate.uuid h1)
                  have h3 : key_lt (lineKey x) m.uuid := hhead m.uuid hm_tgt2
                  have h4 := key_lt_trans h3 h2
                  rw [hu2, hexu] at h4
                  exact key_lt_ne h4 rfl
              · exact hb x (List.mem_cons_self x ls1)
            have hABtail : ((∃ m1 ∈ pendingMutations ps1, m1.uuid = u ∧
                m1.delete = true) ∧ u ∈ keysOf ls1) ∨
                (∀ l ∈ ls1, lineKey l ≠ u) := by
              rcases hab with ⟨⟨md, hmem, hu2, hdl⟩, humem⟩ | hb
              · refine Or.inl ⟨⟨md, ?_, hu2, hdl⟩, ?_⟩
                · rw [hpe1]; exact hmem
                · simp only [keysOf_cons, List.mem_cons] at humem
                  rcases humem with he | he
                  · exact absurd he.symm hxu
                  · exact he
              · exact Or.inr fun l hl => hb l (List.mem_cons_of_mem x hl)
            obtain ⟨ihA, ihB⟩ := ih ps1 rest u U hd htail
              (by rw [hpe1]; exact hpsort)
              (by rw [hpe1]
                  intro m1 hm1
                  rcases List.mem_cons.mp hm1 with h1 | h1
                  · subst h1; exact hm_tgt2
                  · exact hrest_tgt m1 h1)
              hinv1 hABtail
              (by rw [hpe1]; exact hU)
            subst hrl
            simp only [ReadResultLine.new, Bool.false_eq_true, if_false]
            constructor
            · intro l hl
              rcases List.mem_cons.mp hl with h1 | h1
              · subst h1; exact hxu
              · exact ihA l h1
            · rw [List.filter_cons]
              by_cases hP : lineKey x ∉ U
              · rw [if_pos (by simpa using hP)]
                exact ihB.cons₂ x
              · rw [if_neg (by simpa using hP)]
                exact ihB.cons x
          · -- front match: the mutation is consumed
            rw [hnewline] at heq
            have hkU : lineKey x ∈ U := by
              rw [← heq]
              exact hU m (List.mem_cons_self m restM)
            have hABtail : ((∃ m1 ∈ pendingMutations ps1, m1.uuid = u ∧
                m1.delete = true) ∧ u ∈ keysOf ls1) ∨
                (∀ l ∈ ls1, lineKey l ≠ u) := by
              rcases hab with ⟨⟨md, hmem, hu2, hdl⟩, humem⟩ | hb
              · by_cases hexu : lineKey x = u
                · -- the matched mutation is the delete for u
                  refine Or.inr ?_
                  intro l hl
                  have : key_lt (lineKey x) (lineKey l) :=
                    hhead (lineKey l) (List.mem_map_of_mem lineKey hl)
                  rw [hexu] at this
                  exact fun hc => key_lt_ne this (hc ▸ rfl)
                · refine Or.inl ⟨⟨md, ?_, hu2, hdl⟩, ?_⟩
                  · rw [hpe1]
                    rcases List.mem_cons.mp hmem with h1 | h1
                    · exfalso
                      subst h1
                      exact hexu (heq ▸ hu2)
                    · exact h1
                  · simp only [keysOf_cons, List.mem_cons] at humem
                    rcases humem with he | he
                    · exact absurd he.symm hexu
                    · exact he
              · exact Or.inr fun l hl => hb l (List.mem_cons_of_mem x hl)
            obtain ⟨ihA, ihB⟩ := ih ps1 rest u U hd htail
              (by rw [hpe1]; exact hm_tail)
              (by rw [hpe1]; exact hrest_tgt)
              hinv1 hABtail
              (by rw [hpe1]
                  intro m1 hm1
                  exact hU m1 (List.mem_cons_of_mem m hm1))
            have hrlu : lineKey rl.line ≠ u → ∀ l ∈ (if rl.mark_for_deletion = true
                then rest else rl.line :: rest), lineKey l ≠ u := by
              intro hku l hl
              by_cases hmk : rl.mark_for_deletion = true
              · rw [if_pos hmk] at hl
                exact ihA l hl
              · rw [if_neg hmk] at hl
                rcases List.mem_cons.mp hl with h1 | h1
                · subst h1; exact hku
                · exact ihA l h1
            have hfilterx : (List.filter (fun l => decide (lineKey l ∉ U)) (x :: ls1)) =
                List.filter (fun l => decide (lineKey l ∉ U)) ls1 := by
              rw [List.filter_cons]
              rw [if_neg (by simp [hkU])]
            constructor
            · rcases hab with ⟨⟨md, hmem, hu2, hdl⟩, humem⟩ | hb
              · by_cases hexu : lineKey x = u
                · have hmd : md = m := by
                    rcases List.mem_cons.mp hmem with h1 | h1
                    · exact h1
                    · exfalso
                      have h2 : key_lt m.uuid md.uuid :=
                        hm_head md.uuid (List.mem_map_of_mem PutDeleteUpdate.uuid h1)
                      rw [heq, hexu, hu2] at h2
                      exact key_lt_ne h2 rfl
                  have hmdel : m.delete = true := by rw [← hmd]; exact hdl
                  have hmk : rl.mark_for_deletion = true := hdel_t hmdel
                  rw [if_pos hmk]
                  exact ihA
                · exact hrlu (by rw [hkrl]; exact hexu)
              · refine hrlu ?_
                rw [hkrl]
                exact hb x (List.mem_cons_self x ls1)
            · rw [hfilterx]
              by_cases hmk : rl.mark_for_deletion = true
              · rw [if_pos hmk]
                exact ihB
              · rw [if_neg hmk]
                exact ihB.cons rl.line

theorem next_result_line_buf_of_updated {buf : Option ReadResultLine}
    {reader : List Line} {r : ReadResultLine} {reader1 : List Line}
    (h : next_result_line buf reader = some (r, reader1))
    (hu : r.updated = true) : buf = some r := by
  cases buf with
  | some rr =>
    simp only [next_result_line, Option.some.injEq, Prod.mk.injEq] at h
    rw [h.1]
  | none =>
    cases reader with
    | nil => simp [next_result_line] at h
    | cons l ls =>
      simp only [next_result_line, Option.some.injEq, Prod.mk.injEq] at h
      rw [← h.1] at hu
      simp [ReadResultLine.new] at hu

theorem next_result_line_mark {buf : Option ReadResultLine}
    {reader : List Line} {r : ReadResultLine} {reader1 : List Line}
    (h : next_result_line buf reader = some (r, reader1))
    (hbuf : ∀ rr, buf = some rr → rr.mark_for_deletion = false) :
    r.mark_for_deletion = false := by
  cases buf with
  | some rr =>
    simp only [next_result_line, Option.some.injEq, Prod.mk.injEq] at h
    rw [← h.1]
    exact hbuf rr rfl
  | none =>
    cases reader with
    | nil => simp [next_result_line] at h
    | cons l ls =>
      simp only [next_result_line, Option.some.injEq, Prod.mk.injEq] at h
      rw [← h.1]
      rfl

/-- Delete semantics of the main merge loop. Under the loop invariants —
pending old lines strictly sorted; pending mutations strictly sorted by uuid
and each targeting a pending old key; applier-state discipline; either a
delete for `u` pending, `u` among the pending old keys and the buffered line
keyed `u` (if any) not yet matched, or no pending old line keyed `u`; no
pending staged line keyed `u`; the buffered old line unmarked; a matched
buffered line's key below every pending mutation uuid; and `U` a superset of
the pending mutation uuids — the loop writes `st.out` followed by lines none
of which is keyed `u`, among which the pending old lines keyed outside `U`
appear unchanged and in order. -/
theorem merge_loop_delete : ∀ (fuel : Nat) (st : MergeLoopState) (out : List Line)
    (u : Line) (U : List Line),
    st.measure ≤ fuel →
    merge_loop fuel st = some out →
    List.Pairwise key_lt (keysOf (pendOldLines st.read_result st.results_reader)) →
    List.Pairwise key_lt ((pendingMutations st.patch).map PutDeleteUpdate.uuid) →
    (∀ m ∈ pendingMutations st.patch,
      m.uuid ∈ keysOf (pendOldLines st.read_result st.results_reader)) →
    PSInv st.patch →
    (((∃ m ∈ pendingMutations st.patch, m.uuid = u ∧ m.delete = true) ∧
       u ∈ keysOf (pendOldLines st.read_result st.results_reader) ∧
       (∀ r, st.read_result = some r → lineKey r.line = u → r.updated = false)) ∨
      (∀ l ∈ pendOldLines st.read_result st.results_reader, lineKey l ≠ u)) →
    (u ∉ keysOf (pendNewLines st.read_cached_post st.cached_posts_reader
      st.post_files)) →
    (∀ r, st.read_result = some r → r.mark_for_deletion = false) →
    (∀ r, st.read_result = some r → r.updated = true →
      ∀ m ∈ pendingMutations st.patch, key_lt (lineKey r.line) m.uuid) →
    (∀ m ∈ pendingMutations st.patch, m.uuid ∈ U) →
    ∃ rest, out = st.out ++ rest ∧ (∀ l ∈ rest, lineKey l ≠ u) ∧
      ((pendOldLines st.read_result st.results_reader).filter
        (fun l => decide (lineKey l ∉ U))).Sublist rest := by
  intro fuel
  induction fuel with
  | zero =>
    intro st out u U hm hrun inv1 inv2 inv3 inv4 inv5 inv6 inv7 inv8 inv9
    have hz : st.cached_posts_reader.length = 0 ∧ optCount st.read_cached_post = 0 ∧
        st.results_reader.length = 0 ∧ optCount st.read_result = 0 := by
      simp only [MergeLoopState.measure] at hm
      omega
    have hcp : st.cached_posts_reader = [] := List.length_eq_zero.mp hz.1
    have hbuf : st.read_cached_post = none := optCount_eq_zero hz.2.1
    have hres : st.results_reader = [] := List.length_eq_zero.mp hz.2.2.1
    have hrr : st.read_result = none := optCount_eq_zero hz.2.2.2
    simp only [merge_loop, hcp, hbuf, Option.some.injEq] at hrun
    subst hrun
    refine ⟨[], by simp, by simp, ?_⟩
    rw [hrr, hres]
    simp [pendOldLines]
  | succ n ih =>
    intro st out u U hm hrun inv1 inv2 inv3 inv4 inv5 inv6 inv7 inv8 inv9
    simp only [merge_loop] at hrun
    cases h1 : next_result_line st.read_result st.results_reader with
    | none =>
      rw [h1] at hrun
      simp only [Option.some.injEq] at hrun
      subst hrun
      obtain ⟨hbuf, hreader⟩ := next_result_line_none h1
      have hsub : ((match st.read_cached_post with
          | some l => [l] | none => []) ++ st.cached_posts_reader).Sublist
          (pendNewLines st.read_cached_post st.cached_posts_reader st.post_files) := by
        unfold pendNewLines
        exact List.sublist_append_left _ _
      refine ⟨(match st.read_cached_post with
          | some l => [l] | none => []) ++ st.cached_posts_reader,
        by rw [List.append_assoc], ?_, ?_⟩
      · intro l hl
        intro hc
        refine inv6 ?_
        rw [← hc]
        exact List.mem_map_of_mem lineKey (hsub.subset hl)
      · rw [hbuf, hreader]
        simp [pendOldLines]
    | some pr =>
      obtain ⟨rrl0, results1⟩ := pr
      rw [h1] at hrun
      dsimp only at hrun
      obtain ⟨hpo, hcnt1, _⟩ := next_result_line_some h1
      rw [hpo] at inv1 inv3 inv5
      simp only [keysOf_cons, List.pairwise_cons] at inv1
      obtain ⟨hhead, htail⟩ := inv1
      have hmark0 : rrl0.mark_for_deletion = false := next_result_line_mark h1 inv7
      cases h2 : (if rrl0.updated = true then some (st.patch, rrl0)
          else update_post_line_with_put_delete st.patch rrl0) with
      | none => rw [h2] at hrun; simp at hrun
      | some pr2 =>
        obtain ⟨ps1, rrl1⟩ := pr2
        rw [h2] at hrun
        dsimp only at hrun
        have hkey1 : lineKey rrl1.line = lineKey rrl0.line := step_patch_key h2
        obtain ⟨hinv1, htri⟩ := step_characterize h2 inv4
        simp only [keysOf_cons] at inv3 inv5
        have hskip_buf : rrl0.updated = true → st.read_result = some rrl0 :=
          fun hu => next_result_line_buf_of_updated h1 hu
        have master :
            (∀ m1 ∈ pendingMutations ps1, m1.uuid ∈ keysOf results1) ∧
            List.Pairwise key_lt ((pendingMutations ps1).map PutDeleteUpdate.uuid) ∧
            (∀ m1 ∈ pendingMutations ps1, m1.uuid ∈ U) ∧
            (lineKey rrl0.line ∉ U → rrl1 = rrl0) ∧
            (rrl1.mark_for_deletion = true → lineKey rrl0.line ∈ U) ∧
            (rrl1.updated = true → ∀ m1 ∈ pendingMutations ps1,
              key_lt (lineKey rrl0.line) m1.uuid) ∧
            ((∃ md ∈ pendingMutations st.patch, md.uuid = u ∧ md.delete = true) →
             (∀ r, st.read_result = some r → lineKey r.line = u →
               r.updated = false) →
             ((lineKey rrl0.line = u → rrl1.mark_for_deletion = true) ∧
              (lineKey rrl0.line ≠ u →
                ∃ md ∈ pendingMutations ps1, md.uuid = u ∧ md.delete = true))) := by
          rcases htri with ⟨hu, hps, hrl⟩ | ⟨hu0, htr⟩
          · subst hps
            have hrl2 := hrl.symm
            subst hrl2
            have h8 := inv8 rrl0 (hskip_buf hu) hu
            refine ⟨?_, inv2, inv9, fun _ => rfl, ?_, fun _ => h8, ?_⟩
            · intro m1 hm1
              rcases List.mem_cons.mp (inv3 m1 hm1) with he | he
              · exfalso
                have h7 := h8 m1 hm1
                rw [he] at h7
                exact key_lt_ne h7 rfl
              · exact he
            · intro hc
              rw [hmark0] at hc
              simp at hc
            · intro hd hguard
              constructor
              · intro hku
                exfalso
                have h9 := hguard rrl0 (hskip_buf hu) hku
                rw [h9] at hu
                simp at hu
              · intro _
                exact hd
          · rcases htr with ⟨hpe, hpe1, hrl⟩ | ⟨m, restM, hmm, hcase⟩
            · have hrl2 := hrl.symm
              subst hrl2
              refine ⟨?_, ?_, ?_, fun _ => rfl, ?_, ?_, ?_⟩
              · rw [hpe1]; intro m1 hm1; simp at hm1
              · rw [hpe1]; simp
              · rw [hpe1]; intro m1 hm1; simp at hm1
              · intro hc
                rw [hmark0] at hc
                simp at hc
              · intro _
                rw [hpe1]
                intro m1 hm1
                simp at hm1
              · intro hd _
                obtain ⟨md, hmd, _, _⟩ := hd
                rw [hpe] at hmd
                simp at hmd
            · have hm_mem : m ∈ pendingMutations st.patch := by
                rw [hmm]; exact List.mem_cons_self m restM
              have hm_head : ∀ v ∈ restM.map PutDeleteUpdate.uuid,
                  key_lt m.uuid v := by
                rw [hmm] at inv2
                exact (List.pairwise_cons.mp inv2).1
              have hm_tail : List.Pairwise key_lt
                  (restM.map PutDeleteUpdate.uuid) := by
                rw [hmm] at inv2
                exact (List.pairwise_cons.mp inv2).2
              have hm_tgt := inv3 m hm_mem
              rcases hcase with ⟨hne, hpe1, hrl⟩ | ⟨heq, hpe1, hupd, hkey, hdt, hdf⟩
              · have hrl2 := hrl.symm
                subst hrl2
                have hm_tgt2 : m.uuid ∈ keysOf results1 := by
                  rcases List.mem_cons.mp hm_tgt with he | he
                  · exact absurd he hne
                  · exact he
                refine ⟨?_, ?_, ?_, fun _ => rfl, ?_, ?_, ?_⟩
                · rw [hpe1]
                  intro m1 hm1
                  rcases List.mem_cons.mp hm1 with h3 | h3
                  · subst h3; exact hm_tgt2
                  · have h4 : key_lt m.uuid m1.uuid :=
                      hm_head m1.uuid (List.mem_map_of_mem PutDeleteUpdate.uuid h3)
                    have h5 := inv3 m1 (by rw [hmm]; exact List.mem_cons_of_mem m h3)
                    rcases List.mem_cons.mp h5 with he | he
                    · exfalso
                      have h6 : key_lt (lineKey rrl0.line) m.uuid :=
                        hhead m.uuid hm_tgt2
                      have h7 := key_lt_trans h6 h4
                      rw [he] at h7
                      exact key_lt_ne h7 rfl
                    · exact he
                · rw [hpe1, ← hmm]; exact inv2
                · rw [hpe1, ← hmm]; exact inv9
                · intro hc
                  rw [hmark0] at hc
                  simp at hc
                · intro hc
                  rw [hu0] at hc
                  simp at hc
                · intro hd _
                  constructor
                  · intro hku
                    exfalso
                    obtain ⟨md, hmd, hmdu, _⟩ := hd
                    rw [hmm] at hmd
                    rcases List.mem_cons.mp hmd with h3 | h3
                    · subst h3
                      exact hne (by rw [hmdu, hku])
                    · have h4 : key_lt m.uuid md.uuid :=
                        hm_head md.uuid (List.mem_map_of_mem PutDeleteUpdate.uuid h3)
                      rcases List.mem_cons.mp hm_tgt with he | he
                      · exact hne he
                      · have h6 : key_lt (lineKey rrl0.line) m.uuid :=
                          hhead m.uuid he
                        have h7 := key_lt_trans h6 h4
                        rw [hmdu, hku] at h7
                        exact key_lt_ne h7 rfl
                  · intro _
                    obtain ⟨md, hmd, hmdu, hmdd⟩ := hd
                    rw [hpe1, ← hmm]
                    exact ⟨md, hmd, hmdu, hmdd⟩
              · refine ⟨?_, ?_, ?_, ?_, ?_, ?_, ?_⟩
                · rw [hpe1]
                  intro m1 hm1
                  have h4 : key_lt m.uuid m1.uuid :=
                    hm_head m1.uuid (List.mem_map_of_mem PutDeleteUpdate.uuid hm1)
                  have h5 := inv3 m1 (by rw [hmm]; exact List.mem_cons_of_mem m hm1)
                  rcases List.mem_cons.mp h5 with he | he
                  · exfalso
                    rw [heq, he] at h4
                    exact key_lt_ne h4 rfl
                  · exact he
                · rw [hpe1]; exact hm_tail
                · rw [hpe1]
                  intro m1 hm1
                  exact inv9 m1 (by rw [hmm]; exact List.mem_cons_of_mem m hm1)
                · intro hnU
                  exfalso
                  refine hnU ?_
                  rw [← heq]
                  exact inv9 m hm_mem
                · intro _
                  rw [← heq]
                  exact inv9 m hm_mem
                · intro _
                  rw [hpe1]
                  intro m1 hm1
                  have h4 : key_lt m.uuid m1.uuid :=
                    hm_head m1.uuid (List.mem_map_of_mem PutDeleteUpdate.uuid hm1)
                  rw [← heq]
                  exact h4
                · intro hd hguard
                  obtain ⟨md, hmd, hmdu, hmdd⟩ := hd
                  rw [hmm] at hmd
                  constructor
                  · intro hku
                    have hmd_eq : md = m := by
                      rcases List.mem_cons.mp hmd with h3 | h3
                      · exact h3
                      · exfalso
                        have h4 : key_lt m.uuid md.uuid :=
                          hm_head md.uuid
                            (List.mem_map_of_mem PutDeleteUpdate.uuid h3)
                        rw [heq, hku, hmdu] at h4
                        exact key_lt_ne h4 rfl
                    apply hdt
                    rw [← hmd_eq]
                    exact hmdd
                  · intro hknu
                    rcases List.mem_cons.mp hmd with h3 | h3
                    · exfalso
                      subst h3
                      exact hknu (by rw [← hmdu, heq])
                    · refine ⟨md, ?_, hmdu, hmdd⟩
                      rw [hpe1]
                      exact h3
        obtain ⟨m_strong, m_sort, m_U, m_eq, m_markU, m_upd, m_del⟩ := master
        have hmm2 : st.results_reader.length + optCount st.read_result +
            st.cached_posts_reader.length + sumLens st.post_files +
            optCount st.read_cached_post ≤ n + 1 := by
          have h5 := hm
          simp only [MergeLoopState.measure] at h5
          exact h5
        have hwr_ne : rrl1.mark_for_deletion = false → lineKey rrl1.line ≠ u := by
          intro hmk
          rw [hkey1]
          rcases inv5 with ⟨hdel, humem, hguard⟩ | hB
          · by_cases hku : lineKey rrl0.line = u
            · exfalso
              have h5 := (m_del hdel hguard).1 hku
              rw [hmk] at h5
              simp at h5
            · exact hku
          · exact hB rrl0.line (List.mem_cons_self _ _)
        have hAB1 : ((∃ m ∈ pendingMutations ps1, m.uuid = u ∧ m.delete = true) ∧
            u ∈ keysOf results1) ∨ (∀ l ∈ results1, lineKey l ≠ u) := by
          rcases inv5 with ⟨hdel, humem, hguard⟩ | hB
          · by_cases hku : lineKey rrl0.line = u
            · refine Or.inr ?_
              intro l hl hc
              have h4 := hhead (lineKey l) (List.mem_map_of_mem lineKey hl)
              rw [hku, hc] at h4
              exact key_lt_ne h4 rfl
            · refine Or.inl ⟨(m_del hdel hguard).2 hku, ?_⟩
              rcases List.mem_cons.mp humem with he | he
              · exact absurd he.symm hku
              · exact he
          · exact Or.inr fun l hl => hB l (List.mem_cons_of_mem _ hl)
        have hsub_head : ∀ (rest : List Line),
            (results1.filter (fun l => decide (lineKey l ∉ U))).Sublist rest →
            ((rrl0.line :: results1).filter
                (fun l => decide (lineKey l ∉ U))).Sublist
              ((if rrl1.mark_for_deletion = true then [] else [rrl1.line]) ++ rest) := by
          intro rest hrest
          rw [List.filter_cons]
          by_cases hkU : lineKey rrl0.line ∈ U
          · rw [if_neg (by simpa using hkU)]
            exact hrest.trans (List.sublist_append_right _ _)
          · rw [if_pos (by simpa using hkU)]
            have he := m_eq hkU
            have hmk : rrl1.mark_for_deletion = false := by
              rw [he]
              exact hmark0
            rw [hmk]
            simp only [Bool.false_eq_true, if_false, List.singleton_append]
            rw [he]
            exact hrest.cons₂ rrl0.line
        have hsub_head2 : ∀ (c : Line) (rest : List Line),
            ((pendOldLines (if rrl1.mark_for_deletion = true then none else some rrl1)
                results1).filter (fun l => decide (lineKey l ∉ U))).Sublist rest →
            ((rrl0.line :: results1).filter
                (fun l => decide (lineKey l ∉ U))).Sublist (c :: rest) := by
          intro c rest hrest
          refine List.Sublist.cons c ?_
          by_cases hmk : rrl1.mark_for_deletion = true
          · rw [if_pos hmk] at hrest
            simp only [pendOldLines, List.nil_append] at hrest
            rw [List.filter_cons]
            rw [if_neg (by simpa using m_markU hmk)]
            exact hrest
          · rw [if_neg hmk] at hrest
            simp only [pendOldLines, List.singleton_append] at hrest
            by_cases hkU : lineKey rrl0.line ∈ U
            · rw [List.filter_cons] at hrest ⊢
              rw [if_neg (by simpa using hkU)]
              rw [if_neg (by simp only [hkey1]; simpa using hkU)] at hrest
              exact hrest
            · have he := m_eq hkU
              rw [he] at hrest
              exact hrest
        cases h3 : next_cached_post_line st.read_cached_post st.cached_posts_reader
            st.post_files with
        | none =>
          rw [h3] at hrun
          dsimp only at hrun
          cases h4 : drain_results ps1 results1 with
          | none => rw [h4] at hrun; simp at hrun
          | some drest =>
            rw [h4] at hrun
            dsimp only at hrun
            simp only [Option.some.injEq] at hrun
            subst hrun
            obtain ⟨hdA, hdB⟩ := drain_results_delete results1 ps1 drest u U h4
              htail m_sort m_strong hinv1 hAB1 m_U
            refine ⟨(if rrl1.mark_for_deletion = true then [] else [rrl1.line]) ++ drest,
              by rw [List.append_assoc], ?_, ?_⟩
            · intro l hl
              rcases List.mem_append.mp hl with h5 | h5
              · by_cases hmk : rrl1.mark_for_deletion = true
                · rw [if_pos hmk] at h5
                  simp at h5
                · rw [if_neg hmk] at h5
                  simp only [List.mem_singleton] at h5
                  subst h5
                  exact hwr_ne (by simpa using hmk)
              · exact hdA l h5
            · rw [hpo]
              exact hsub_head drest hdB
        | some tr =>
          obtain ⟨cached, ntail⟩ := tr
          obtain ⟨reader1, files1⟩ := ntail
          rw [h3] at hrun
          dsimp only at hrun
          obtain ⟨hpn, hcnt2⟩ := next_cached_post_line_some h3
          rw [hpn] at inv6
          simp only [keysOf_cons] at inv6
          by_cases hcmp : ltLine (lineKey rrl1.line) (lineKey cached) = true
          · rw [if_pos hcmp] at hrun
            obtain ⟨rest1, hout1, hnu1, hsub1⟩ := ih _ out u U
              (by simp only [MergeLoopState.measure, optCount]; omega) hrun
              (by simpa [pendOldLines] using htail) m_sort
              (by
                intro m1 hm1
                simp only [pendOldLines, List.nil_append]
                exact m_strong m1 hm1)
              hinv1
              (by
                rcases hAB1 with ⟨hdel, hmem⟩ | hB
                · refine Or.inl ⟨hdel, ?_, ?_⟩
                  · simpa [pendOldLines] using hmem
                  · intro r hr
                    simp at hr
                · refine Or.inr ?_
                  intro l hl
                  exact hB l (by simpa [pendOldLines] using hl))
              (by
                simp only [pendNewLines]
                have he : [cached] ++ reader1 ++ files1.flatten =
                    cached :: (reader1 ++ files1.flatten) := by simp
                rw [he, keysOf_cons]
                exact inv6)
              (by intro r hr; simp at hr)
              (by intro r hr; simp at hr)
              m_U
            have hout2 : out = (st.out ++
                (if rrl1.mark_for_deletion = true then [] else [rrl1.line])) ++ rest1 :=
              hout1
            have hsub1a : (results1.filter
                (fun l => decide (lineKey l ∉ U))).Sublist rest1 := hsub1
            refine ⟨(if rrl1.mark_for_deletion = true then [] else [rrl1.line]) ++ rest1,
              ?_, ?_, ?_⟩
            · rw [hout2, List.append_assoc]
            · intro l hl
              rcases List.mem_append.mp hl with h5 | h5
              · by_cases hmk : rrl1.mark_for_deletion = true
                · rw [if_pos hmk] at h5
                  simp at h5
                · rw [if_neg hmk] at h5
                  simp only [List.mem_singleton] at h5
                  subst h5
                  exact hwr_ne (by simpa using hmk)
              · exact hnu1 l h5
            · rw [hpo]
              exact hsub_head rest1 hsub1a
          · rw [if_neg hcmp] at hrun
            obtain ⟨rest1, hout1, hnu1, hsub1⟩ := ih _ out u U
              (by
                have hoc : optCount (if rrl1.mark_for_deletion = true then
                    (none : Option ReadResultLine) else some rrl1) ≤ 1 := by
                  by_cases hmk : rrl1.mark_for_deletion = true
                  · simp [hmk, optCount]
                  · simp [hmk, optCount]
                simp only [MergeLoopState.measure, optCount]
                simp only [optCount] at hoc
                omega) hrun
              (by
                by_cases hmk : rrl1.mark_for_deletion = true
                · rw [if_pos hmk]
                  simpa [pendOldLines] using htail
                · rw [if_neg hmk]
                  simp only [pendOldLines, List.singleton_append, keysOf_cons,
                    List.pairwise_cons]
                  refine ⟨?_, htail⟩
                  intro b hb
                  rw [hkey1]
                  exact hhead b hb)
              m_sort
              (by
                intro m1 hm1
                have h5 := m_strong m1 hm1
                by_cases hmk : rrl1.mark_for_deletion = true
                · rw [if_pos hmk]
                  simpa [pendOldLines] using h5
                · rw [if_neg hmk]
                  simp only [pendOldLines, List.singleton_append, keysOf_cons]
                  exact List.mem_cons_of_mem _ h5)
              hinv1
              (by
                rcases inv5 with ⟨hdel, humem, hguard⟩ | hB
                · by_cases hku : lineKey rrl0.line = u
                  · have hmk := (m_del hdel hguard).1 hku
                    rw [if_pos hmk]
                    refine Or.inr ?_
                    intro l hl
                    simp only [pendOldLines, List.nil_append] at hl
                    intro hc
                    have h4 := hhead (lineKey l) (List.mem_map_of_mem lineKey hl)
                    rw [hku, hc] at h4
                    exact key_lt_ne h4 rfl
                  · refine Or.inl ⟨(m_del hdel hguard).2 hku, ?_, ?_⟩
                    · have hmem1 : u ∈ keysOf results1 := by
                        rcases List.mem_cons.mp humem with he | he
                        · exact absurd he.symm hku
                        · exact he
                      by_cases hmk : rrl1.mark_for_deletion = true
                      · rw [if_pos hmk]
                        simpa [pendOldLines] using hmem1
                      · rw [if_neg hmk]
                        simp only [pendOldLines, List.singleton_append, keysOf_cons]
                        exact List.mem_cons_of_mem _ hmem1
                    · intro r hr
                      by_cases hmk : rrl1.mark_for_deletion = true
                      · rw [if_pos hmk] at hr
                        simp at hr
                      · rw [if_neg hmk] at hr
                        simp only [Option.some.injEq] at hr
                        subst hr
                        intro hru
                        rw [hkey1] at hru
                        exact absurd hru hku
                · refine Or.inr ?_
                  intro l hl
                  by_cases hmk : rrl1.mark_for_deletion = true
                  · rw [if_pos hmk] at hl
                    simp only [pendOldLines, List.nil_append] at hl
                    exact hB l (List.mem_cons_of_mem _ hl)
                  · rw [if_neg hmk] at hl
                    simp only [pendOldLines, List.singleton_append, List.mem_cons] at hl
                    rcases hl with he | he
                    · subst he
                      rw [hkey1]
                      exact hB rrl0.line (List.mem_cons_self _ _)
                    · exact hB l (List.mem_cons_of_mem _ he))
              (by
                simp only [pendNewLines, List.nil_append]
                intro hc
                exact inv6 (List.mem_cons_of_mem _ hc))
              (by
                intro r hr
                by_cases hmk : rrl1.mark_for_deletion = true
                · rw [if_pos hmk] at hr
                  simp at hr
                · rw [if_neg hmk] at hr
                  simp only [Option.some.injEq] at hr
                  subst hr
                  simpa using hmk)
              (by
                intro r hr hru m1 hm1
                by_cases hmk : rrl1.mark_for_deletion = true
                · rw [if_pos hmk] at hr
                  simp at hr
                · rw [if_neg hmk] at hr
                  simp only [Option.some.injEq] at hr
                  subst hr
                  rw [hkey1]
                  exact m_upd hru m1 hm1)
              m_U
            have hout2 : out = (st.out ++ [cached]) ++ rest1 := hout1
            have hsub1a : ((pendOldLines
                (if rrl1.mark_for_deletion = true then none else some rrl1)
                results1).filter (fun l => decide (lineKey l ∉ U))).Sublist rest1 :=
              hsub1
            refine ⟨cached :: rest1, ?_, ?_, ?_⟩
            · rw [hout2]
              simp
            · intro l hl
              rcases List.mem_cons.mp hl with h5 | h5
              · subst h5
                intro hc
                refine inv6 ?_
                rw [← hc]
                exact List.mem_cons_self _ _
              · exact hnu1 l h5
            · rw [hpo]
              exact hsub_head2 cached rest1 hsub1a

/-- Delete semantics at the level of `merge_lines`: with the old lines
strictly sorted, the staged mutations sorted by uuid and each targeting an
old key, every staged mutation file non-empty, a delete mutation for `u`
staged, and no staged post line keyed `u`, the merge output contains no line
keyed `u`, and every old line whose key is outside `U` — a superset of the
staged mutation uuids — appears unchanged and in order. -/
theorem merge_lines_delete (results_lines : List Line)
    (post_files : List (List Line))
    (mutFiles : List (List PutDeleteUpdate)) (out : List Line)
    (u : Line) (U : List Line)
    (hrun : merge_lines results_lines post_files mutFiles = some out)
    (hsort : List.Pairwise key_lt (keysOf results_lines))
    (hmsort : List.Pairwise key_lt (mutFiles.flatten.map PutDeleteUpdate.uuid))
    (htgt : ∀ m ∈ mutFiles.flatten, m.uuid ∈ keysOf results_lines)
    (hne : ∀ f ∈ mutFiles, f ≠ [])
    (hdel : ∃ m ∈ mutFiles.flatten, m.uuid = u ∧ m.delete = true)
    (hnew : u ∉ keysOf post_files.flatten)
    (hU : ∀ m ∈ mutFiles.flatten, m.uuid ∈ U) :
    (∀ l ∈ out, lineKey l ≠ u) ∧
    (results_lines.filter (fun l => decide (lineKey l ∉ U))).Sublist out := by
  have hpend : pendingMutations
      { should_update_results := !mutFiles.isEmpty,
        puts_deletes := [], puts_deletes_files := mutFiles } = mutFiles.flatten := by
    simp [pendingMutations]
  have hinv : PSInv
      { should_update_results := !mutFiles.isEmpty,
        puts_deletes := [], puts_deletes_files := mutFiles } := by
    constructor
    · intro hs
      simp only [Bool.not_eq_false'] at hs
      rw [hpend, List.isEmpty_iff.mp hs]
      simp
    · exact hne
  have humem : u ∈ keysOf results_lines := by
    obtain ⟨m, hm, hmu, _⟩ := hdel
    rw [← hmu]
    exact htgt m hm
  cases post_files with
  | nil =>
    simp only [merge_lines] at hrun
    refine drain_results_delete results_lines _ out u U hrun hsort
      (by rw [hpend]; exact hmsort) (by rw [hpend]; exact htgt) hinv
      (Or.inl ⟨by rw [hpend]; exact hdel, humem⟩) (by rw [hpend]; exact hU)
  | cons f rest =>
    simp only [merge_lines] at hrun
    obtain ⟨rest1, hout1, hnu1, hsub1⟩ := merge_loop_delete _ _ out u U
      (le_refl _) hrun
      (by simpa [pendOldLines] using hsort)
      (by rw [hpend]; exact hmsort)
      (by
        rw [hpend]
        intro m hm
        simpa [pendOldLines] using htgt m hm)
      hinv
      (Or.inl ⟨by rw [hpend]; exact hdel,
        by simpa [pendOldLines] using humem,
        by intro r hr; simp at hr⟩)
      (by
        simp only [pendNewLines, List.nil_append]
        simpa using hnew)
      (by intro r hr; simp at hr)
      (by intro r hr; simp at hr)
      (by rw [hpend]; exact hU)
    have hout2 : out = rest1 := by
      rw [hout1]
      simp
    subst hout2
    exact ⟨hnu1, by simpa [pendOldLines] using hsub1⟩
/-- C6 (amended): when a Cache-kind merge installs a dataset file, given
that the old dataset lines are strictly sorted by uuid, the staged mutation
uuids are sorted and — as the applier's front-mutation push-back forces —
every staged mutation targets a uuid present in the old dataset, every
staged mutation file is non-empty, a delete mutation for `u` is staged, no
staged record line is keyed `u`, no stale `merge.csv` scratch file exists,
and the put payload fields contain no newline, the installed dataset file
contains no line keyed `u`, and every old-dataset line whose uuid is outside
`U` — any superset of the staged mutation uuids — appears in it unchanged
and in its original relative order. -/
theorem C6_amended_delete_semantics
    (fs : Fs) (post_files : List (List Line))
    (mutFiles : List (List PutDeleteUpdate)) (oldContent : List Char)
    (out : List Line) (u : Line) (U : List Line)
    (hold : fs RESULT_CSV_NAME = some oldContent)
    (hclean : fs MERGE_FILE_NAME = none)
    (hrun : merge_lines (contentToLines oldContent) post_files mutFiles = some out)
    (hsorted_old : sortedByKey (contentToLines oldContent))
    (hmsort : List.Pairwise key_lt (mutFiles.flatten.map PutDeleteUpdate.uuid))
    (htgt : ∀ m ∈ mutFiles.flatten, m.uuid ∈ keysOf (contentToLines oldContent))
    (hnonempty : ∀ f ∈ mutFiles, f ≠ [])
    (hdel : ∃ m ∈ mutFiles.flatten, m.uuid = u ∧ m.delete = true)
    (hnew : u ∉ keysOf post_files.flatten)
    (hU : ∀ m ∈ mutFiles.flatten, m.uuid ∈ U)
    (hnew_nl : ∀ l ∈ post_files.flatten, '\n' ∉ l)
    (hmut_nl : newline_free_mutations mutFiles.flatten) :
    fsFile (mergeFS post_files mutFiles fs) RESULT_CSV_NAME =
      some (linesToContent out) ∧
    (∀ l ∈ contentToLines ((fsFile (mergeFS post_files mutFiles fs)
      RESULT_CSV_NAME).getD []), lineKey l ≠ u) ∧
    ((contentToLines oldContent).filter
      (fun l => decide (lineKey l ∉ U))).Sublist
      (contentToLines ((fsFile (mergeFS post_files mutFiles fs)
        RESULT_CSV_NAME).getD [])) := by
  have hnl_old : ∀ l ∈ contentToLines oldContent, '\n' ∉ l :=
    mem_contentToLines_no_newline oldContent
  have hout_nl : ∀ l ∈ out, '\n' ∉ l :=
    merge_lines_newline_free _ _ _ _ hrun hnl_old hnew_nl hmut_nl
  have hrt : contentToLines (linesToContent out) = out :=
    contentToLines_linesToContent out hout_nl
  obtain ⟨hA, hB⟩ := merge_lines_delete (contentToLines oldContent) post_files
    mutFiles out u U hrun hsorted_old hmsort htgt hnonempty hdel hnew hU
  have hfile : fsFile (mergeFS post_files mutFiles fs) RESULT_CSV_NAME =
      some (linesToContent out) := by
    simp [mergeFS, hold, hrun, fsFile, Fs.update, hclean, overlay]
  refine ⟨hfile, ?_, ?_⟩
  · rw [hfile]
    simp only [Option.getD_some]
    rw [hrt]
    exact hA
  · rw [hfile]
    simp only [Option.getD_some]
    rw [hrt]
    exact hB

theorem C6_amended_delete_semantics_witness :
    fsFile (mergeFS [] [[⟨"2".toList, none, true⟩]]
      (Fs.update (fun _ => none) RESULT_CSV_NAME
        (some "1,a,m,0,\n2,b,n,0,\n".toList))) RESULT_CSV_NAME =
      some (linesToContent ["1,a,m,0,".toList]) ∧
    (∀ l ∈ contentToLines ((fsFile (mergeFS [] [[⟨"2".toList, none, true⟩]]
      (Fs.update (fun _ => none) RESULT_CSV_NAME
        (some "1,a,m,0,\n2,b,n,0,\n".toList))) RESULT_CSV_NAME).getD []),
      lineKey l ≠ "2".toList) ∧
    ((contentToLines "1,a,m,0,\n2,b,n,0,\n".toList).filter
      (fun l => decide (lineKey l ∉ ["2".toList]))).Sublist
      (contentToLines ((fsFile (mergeFS [] [[⟨"2".toList, none, true⟩]]
        (Fs.update (fun _ => none) RESULT_CSV_NAME
          (some "1,a,m,0,\n2,b,n,0,\n".toList))) RESULT_CSV_NAME).getD [])) :=
  C6_amended_delete_semantics
    (Fs.update (fun _ => none) RESULT_CSV_NAME
      (some "1,a,m,0,\n2,b,n,0,\n".toList))
    [] [[⟨"2".toList, none, true⟩]] "1,a,m,0,\n2,b,n,0,\n".toList
    ["1,a,m,0,".toList] "2".toList ["2".toList]
    (by decide) (by decide) (by decide) (by decide) (by decide) (by decide)
    (by decide) (by decide) (by decide) (by decide) (by decide) (by decide)

/-- C6 counterexample: the old dataset `"1,a,m,0,\n2,b,n,0,\n"` contains the
line with uuid `2`, the staged mutation stream is sorted by uuid and
contains a delete mutation for `2`, and the merge installs a dataset file —
every hypothesis of the claim holds; but the stream's first mutation targets
uuid `0`, which is absent from the old dataset, the applier pushes it back
on every mismatch instead of discarding it, so the delete for `2` is never
reached and the installed dataset still contains the line keyed `2`. -/
theorem C6_counterexample :
    sortedByKey (contentToLines "1,a,m,0,\n2,b,n,0,\n".toList) ∧
    "2".toList ∈ keysOf (contentToLines "1,a,m,0,\n2,b,n,0,\n".toList) ∧
    List.Pairwise key_lt
      (([[⟨"0".toList, some ⟨"x".toList, "y".toList, (0 : Int), none⟩, false⟩,
          ⟨"2".toList, none, true⟩]] :
        List (List PutDeleteUpdate)).flatten.map PutDeleteUpdate.uuid) ∧
    (⟨"2".toList, none, true⟩ : PutDeleteUpdate) ∈
      ([[⟨"0".toList, some ⟨"x".toList, "y".toList, (0 : Int), none⟩, false⟩,
         ⟨"2".toList, none, true⟩]] :
        List (List PutDeleteUpdate)).flatten ∧
    fsFile (mergeFS []
      [[⟨"0".toList, some ⟨"x".toList, "y".toList, (0 : Int), none⟩, false⟩,
        ⟨"2".toList, none, true⟩]]
      (Fs.update (fun _ => none) RESULT_CSV_NAME
        (some "1,a,m,0,\n2,b,n,0,\n".toList))) RESULT_CSV_NAME =
      some "1,a,m,0,\n2,b,n,0,\n".toList ∧
    "2".toList ∈ keysOf (contentToLines ((fsFile (mergeFS []
      [[⟨"0".toList, some ⟨"x".toList, "y".toList, (0 : Int), none⟩, false⟩,
        ⟨"2".toList, none, true⟩]]
      (Fs.update (fun _ => none) RESULT_CSV_NAME
        (some "1,a,m,0,\n2,b,n,0,\n".toList))) RESULT_CSV_NAME).getD [])) := by
  refine ⟨by decide, by decide, by decide, by decide, by decide, by decide⟩
